import Mathlib

/-!
Structural-holes metrics of Easy-Graph

A shallow embedding of `cpp_easygraph/functions/structural_holes/evaluation.cpp`.

* `weight_t` (a C++ float) is embedded as an arbitrary linearly ordered field `K`
  with exact arithmetic; the rationals make every definition executable.  The value
  `Py_NAN`, which the source assigns for isolated nodes, is the constructor
  `PyFloat.nan`.  Rounding and overflow of `weight_t` are not modelled, so the
  theorems speak of the structure of the computation, not of its last digits.
* The division by the number of vertices of the ego subgraph in `effective_size`,
  whose divisor is 0 for a node that is its own only neighbour, follows the
  floating-point rules: `0/0` is not a number (`float_div`, `float_sub`).  The
  division in `normalized_mutual_weight` is guarded by the source.  The formula of
  `hierarchy` for more than one neighbour is evaluated in the field, where a
  quotient by 0 is 0; its special values are not modelled.
* `std::map` and `std::unordered_map` are association lists with unique keys
  (`AList`); a range-for loop runs over the entries in list order.
* `operator[]` inserts a default value under a missing key; this is `map_index`.
  The graph is therefore threaded through every function that receives `Graph&`.
* The three global memo tables and the graph form the `State`.
* Node labels are identified with node ids: the Python dictionaries `node_to_id`
  and `id_to_node` are the identity.  A requested id that the graph does not hold
  is treated as a node without neighbours.
* The operands of a product are evaluated from left to right.
* The methods of the Python graph object (`ego_subgraph`, `remove_node`, `size`,
  `neighbors`, `is_directed`, `len`) live outside this file and are modelled from
  the specification.

Definitions in snake case embed the source; definitions in camel case
(`edgeWeight`, `mutualWeight`, `normalizedMutualWeight`, `localConstraint`,
`constraintOf`, `redundancyOf`) are the un-memoized formulas of the specification,
against which the memoized engine is compared.
-/

namespace StructuralHoles

/-! ## Data model -/

abbrev node_t := Int

/-- Finite map with unique keys (std::map, std::unordered_map, py::dict). -/
abbrev Map (κ ν : Type) := AList (fun _ : κ => ν)

abbrev edge_attr_dict_factory (K : Type) := Map String K

abbrev adj_attr_dict_factory (K : Type) := Map node_t (edge_attr_dict_factory K)

abbrev adj_dict_factory (K : Type) := Map node_t (adj_attr_dict_factory K)

/-- The memo tables map ordered node pairs to weights. -/
abbrev rec_t (K : Type) := Map (node_t × node_t) K

/-- Modelled from the spec: the `Graph` class is declared in `classes/graph.h`.
Only the node table, the adjacency map `adj` and the answer of `is_directed()`
are used by the metrics. -/
structure Graph (K : Type) where
  node : List node_t
  adj : adj_dict_factory K
  directed : Bool

/-- A weight as handed to Python: `Py_NAN` (also the result of `0/0`), a number, or
an infinity produced by a division by zero. -/
inductive PyFloat (K : Type) where
  | nan : PyFloat K
  | num : K → PyFloat K
  | pinf : PyFloat K
  | ninf : PyFloat K
  deriving DecidableEq

inductive norm_t where
  | sum : norm_t
  | max : norm_t
  deriving DecidableEq

/-- The graph argument together with the global tables
`sum_nmw_rec`, `max_nmw_rec`, `local_constraint_rec`. -/
structure State (K : Type) where
  G : Graph K
  sum_nmw_rec : rec_t K
  max_nmw_rec : rec_t K
  local_constraint_rec : rec_t K

/-! ## Map primitives -/

section MapOps

variable {κ ν : Type} [DecidableEq κ]

/-- The member function `count`. -/
def map_count (m : Map κ ν) (k : κ) : Bool := (m.lookup k).isSome

/-- The subscript `m[k]`: the value under `k`; a missing key is inserted with the
default value first. -/
def map_index (m : Map κ ν) (k : κ) (dflt : ν) : ν × Map κ ν :=
  match m.lookup k with
  | some x => (x, m)
  | none => (dflt, m.insert k dflt)

/-- The member function `size`. -/
def map_size (m : Map κ ν) : Nat := m.entries.length

end MapOps

variable {K : Type} [LinearOrderedField K]

/-! ## mutual_weight -/

/-- The subscript `G.adj[u][v]`: a reference to the attribute map of edge `u -> v`. -/
def adj_index2 (adj : adj_dict_factory K) (u v : node_t) :
    edge_attr_dict_factory K × adj_dict_factory K :=
  let r1 := map_index adj u ∅
  let r2 := map_index r1.1 v ∅
  (r2.1, r1.2.replace u r2.2)

/-- The subscript `guv[weight]` on the reference `guv = G.adj[u][v]`. -/
def edge_attr_index (adj : adj_dict_factory K) (u v : node_t) (guv : edge_attr_dict_factory K)
    (weight : String) : K × adj_dict_factory K :=
  let r := map_index guv weight 0
  let adj_u := (adj.lookup u).getD ∅
  (r.1, adj.replace u (adj_u.replace v r.2))

/-- One of the two guarded blocks of `mutual_weight`: the contribution of the
direction `u -> v`. -/
def directed_term (adj : adj_dict_factory K) (u v : node_t) (weight : String) :
    K × adj_dict_factory K :=
  if map_count adj u then
    let r1 := map_index adj u ∅
    if map_count r1.1 v then
      let r2 := adj_index2 r1.2 u v
      if map_count r2.1 weight then edge_attr_index r2.2 u v r2.1 weight else (1, r2.2)
    else (0, r1.2)
  else (0, adj)

def mutual_weight (G : Graph K) (u v : node_t) (weight : String) : K × Graph K :=
  let a_uv := directed_term G.adj u v weight
  let a_vu := directed_term a_uv.2 v u weight
  (a_uv.1 + a_vu.1, ⟨G.node, a_vu.2, G.directed⟩)

/-! ## Read-only views used by the specification -/

/-- The neighbour map of `u`, empty when `u` is not a key of `adj`. -/
def nbrs (G : Graph K) (u : node_t) : adj_attr_dict_factory K := (G.adj.lookup u).getD ∅

/-- The `edgeWeight` of the specification: 0 without an edge, the attribute when it
is present, 1 otherwise. -/
def edgeWeight (G : Graph K) (a b : node_t) (weight : String) : K :=
  match (nbrs G a).lookup b with
  | none => 0
  | some attrs => (attrs.lookup weight).getD 1

/-- The `mutualWeight` of the specification. -/
def mutualWeight (G : Graph K) (u v : node_t) (weight : String) : K :=
  edgeWeight G u v weight + edgeWeight G v u weight

/-- The `scale` of the specification: the mutual weights of `u` towards its
neighbours, summed or maximised (the accumulator starts at 0). -/
def scaleOf (G : Graph K) (u : node_t) (weight : String) (norm : norm_t) : K :=
  match norm with
  | norm_t.sum => ((nbrs G u).keys.map (fun w => mutualWeight G u w weight)).sum
  | norm_t.max => (nbrs G u).keys.foldl (fun s w => max s (mutualWeight G u w weight)) 0

/-- The un-memoized `normalizedMutualWeight` of the specification. -/
def normalizedMutualWeight (G : Graph K) (u v : node_t) (weight : String) (norm : norm_t) : K :=
  if scaleOf G u weight norm = 0 then 0
  else mutualWeight G u v weight / scaleOf G u weight norm

/-- The un-memoized `localConstraint` of the specification. -/
def localConstraint (G : Graph K) (u v : node_t) (weight : String) : K :=
  (normalizedMutualWeight G u v weight norm_t.sum
    + ((nbrs G u).keys.map (fun w =>
        normalizedMutualWeight G u w weight norm_t.sum
          * normalizedMutualWeight G w v weight norm_t.sum)).sum) ^ 2

/-- The un-memoized constraint of a node with neighbours. -/
def constraintOf (G : Graph K) (v : node_t) (weight : String) : K :=
  ((nbrs G v).keys.map (fun w => localConstraint G v w weight)).sum

/-- The un-memoized `redundancy` of the specification. -/
def redundancyOf (G : Graph K) (u v : node_t) (weight : String) : K :=
  1 - ((nbrs G u).keys.map (fun w =>
        normalizedMutualWeight G u w weight norm_t.sum
          * normalizedMutualWeight G v w weight norm_t.max)).sum

/-! ## The memoized engine -/

/-- Replace the graph of a state. -/
def set_G (st : State K) (G : Graph K) : State K :=
  ⟨G, st.sum_nmw_rec, st.max_nmw_rec, st.local_constraint_rec⟩

/-- The subscript `G.adj[u]`. -/
def adj_index (G : Graph K) (u : node_t) : adj_attr_dict_factory K × Graph K :=
  let r := map_index G.adj u ∅
  (r.1, ⟨G.node, r.2, G.directed⟩)

/-- The table selected by `norm`. -/
def nmw_rec (st : State K) (norm : norm_t) : rec_t K :=
  if norm = norm_t.sum then st.sum_nmw_rec else st.max_nmw_rec

/-- The assignment `nmw_rec[edge] = nmw` on the table selected by `norm`. -/
def nmw_rec_store (st : State K) (norm : norm_t) (edge : node_t × node_t) (nmw : K) : State K :=
  if norm = norm_t.sum then
    ⟨st.G, st.sum_nmw_rec.insert edge nmw, st.max_nmw_rec, st.local_constraint_rec⟩
  else
    ⟨st.G, st.sum_nmw_rec, st.max_nmw_rec.insert edge nmw, st.local_constraint_rec⟩

def normalized_mutual_weight (st : State K) (u v : node_t) (weight : String) (norm : norm_t) :
    K × State K :=
  let edge := (u, v)
  match (nmw_rec st norm).lookup edge with
  | some nmw => (nmw, st)
  | none =>
    let a := adj_index st.G u
    let loop := a.1.entries.foldl (fun (acc : K × Graph K) w =>
        let temp_weight := mutual_weight acc.2 u w.1 weight
        (if norm = norm_t.sum then acc.1 + temp_weight.1 else max acc.1 temp_weight.1,
          temp_weight.2)) (0, a.2)
    let scale := loop.1
    let r := if scale ≠ 0 then
        let m := mutual_weight loop.2 u v weight
        (m.1 / scale, m.2)
      else (0, loop.2)
    (r.1, nmw_rec_store (set_G st r.2) norm edge r.1)

/-- The two factors of a product are evaluated from left to right. -/
def local_constraint (st : State K) (u v : node_t) (weight : String) : K × State K :=
  let edge := (u, v)
  match st.local_constraint_rec.lookup edge with
  | some r => (r, st)
  | none =>
    let direct := normalized_mutual_weight st u v weight norm_t.sum
    let a := adj_index direct.2.G u
    let loop := a.1.entries.foldl (fun (acc : K × State K) w =>
        let x := normalized_mutual_weight acc.2 u w.1 weight norm_t.sum
        let y := normalized_mutual_weight x.2 w.1 v weight norm_t.sum
        (acc.1 + x.1 * y.1, y.2)) (0, set_G direct.2 a.2)
    let indirect := loop.1
    let result := (direct.1 + indirect) ^ 2
    (result, ⟨loop.2.G, loop.2.sum_nmw_rec, loop.2.max_nmw_rec,
      loop.2.local_constraint_rec.insert edge result⟩)

def compute_constraint_of_v (st : State K) (v : node_t) (weight : String) :
    (node_t × PyFloat K) × State K :=
  let a := adj_index st.G v
  if map_size a.1 = 0 then ((v, PyFloat.nan), set_G st a.2)
  else
    let b := adj_index a.2 v
    let loop := b.1.entries.foldl (fun (acc : K × State K) n =>
        let t := local_constraint acc.2 v n.1 weight
        (acc.1 + t.1, t.2)) (0, set_G st b.2)
    ((v, PyFloat.num loop.1), loop.2)

/-- Modelled from the spec: `weight_to_string` of `common/utils.h`; an absent weight
key is the string "None". -/
def weight_to_string : Option String → String
  | none => "None"
  | some s => s

/-- The conversion `py::dict(list)` of a list of pairs: later pairs overwrite. -/
def py_dict {ν : Type} (l : List (node_t × ν)) : Map node_t ν :=
  l.foldl (fun d p => d.insert p.1 p.2) ∅

/-- The requested nodes: all nodes of the graph when `nodes` is None. -/
def requested (G : Graph K) (nodes : Option (List node_t)) : List node_t :=
  match nodes with
  | none => G.node
  | some l => l

def constraint (st : State K) (nodes : Option (List node_t)) (weight : Option String)
    (_n_workers : Option Nat) : Map node_t (PyFloat K) × State K :=
  let weight_key := weight_to_string weight
  let st0 : State K := ⟨st.G, ∅, ∅, ∅⟩
  let nodes_list := requested st.G nodes
  let loop := nodes_list.foldl (fun (acc : List (node_t × PyFloat K) × State K) v =>
      let v_id := v
      let constraint_pair := compute_constraint_of_v acc.2 v_id weight_key
      (acc.1 ++ [(constraint_pair.1.1, constraint_pair.1.2)], constraint_pair.2)) ([], st0)
  (py_dict loop.1, loop.2)

def redundancy (st : State K) (u v : node_t) (weight : String) : K × State K :=
  let a := adj_index st.G u
  let loop := a.1.entries.foldl (fun (acc : K × State K) neighbor_info =>
      let w := neighbor_info.1
      let x := normalized_mutual_weight acc.2 u w weight norm_t.sum
      let y := normalized_mutual_weight x.2 v w weight norm_t.max
      (acc.1 + x.1 * y.1, y.2)) (0, set_G st a.2)
  (1 - loop.1, loop.2)

/-! ## The Python side of the graph -/

/-- Modelled from the spec: `G[v]`, the read-only neighbour view of `v`
(`neighbors(nodeId)`, reflecting the current graph). -/
def py_getitem (G : Graph K) (v : node_t) : adj_attr_dict_factory K := nbrs G v

/-- Modelled from the spec: `neighbors(nodeId)`, the neighbour ids of a node. -/
def neighbors (G : Graph K) (v : node_t) : List node_t := (nbrs G v).keys

/-- Modelled from the spec: `isDirected()`. -/
def is_directed (G : Graph K) : Bool := G.directed

/-- Modelled from the spec: `len(G)`, the number of vertices. -/
def py_len (G : Graph K) : Nat := G.node.length

/-- Modelled from the spec: `egoSubgraph(nodeId)`, the induced subgraph of the node
plus its open neighbourhood. -/
def ego_subgraph (G : Graph K) (v : node_t) : Graph K :=
  let S := (v :: neighbors G v).dedup
  ⟨S, List.toAList (S.map (fun x =>
      (⟨x, List.toAList ((nbrs G x).entries.filter (fun e => e.1 ∈ S))⟩ :
        Sigma fun _ : node_t => adj_attr_dict_factory K))), G.directed⟩

/-- Modelled from the spec: `remove_node`, deleting a vertex with its edges. -/
def remove_node (G : Graph K) (v : node_t) : Graph K :=
  ⟨G.node.filter (fun x => x ≠ v),
    List.toAList ((G.adj.entries.filter (fun e => e.1 ≠ v)).map (fun e =>
      (⟨e.1, List.toAList (e.2.entries.filter (fun f => f.1 ≠ v))⟩ :
        Sigma fun _ : node_t => adj_attr_dict_factory K))), G.directed⟩

/-- Modelled from the spec: `size()`, the number of edges; an undirected edge is
stored in both directions and counted once. -/
def number_of_edges (G : Graph K) : Nat :=
  (G.adj.entries.map (fun e =>
    (e.2.keys.filter (fun y => G.directed || decide (e.1 ≤ y))).length)).sum

/-! ## effective_size and hierarchy -/

/-- The floating-point quotient `a / b` where `b` may be 0 (an unsigned count turned
into a weight): `0/0` is not a number, a non-zero numerator gives an infinity of
its sign. -/
def float_div (a b : K) : PyFloat K :=
  if b = 0 then (if a = 0 then PyFloat.nan else if 0 < a then PyFloat.pinf else PyFloat.ninf)
  else PyFloat.num (a / b)

/-- The floating-point difference `a - q` of a number and a quotient. -/
def float_sub (a : K) : PyFloat K → PyFloat K
  | PyFloat.nan => PyFloat.nan
  | PyFloat.num x => PyFloat.num (a - x)
  | PyFloat.pinf => PyFloat.ninf
  | PyFloat.ninf => PyFloat.pinf

def effective_size (st : State K) (nodes : Option (List node_t)) (weight : Option String)
    (_n_workers : Option Nat) : Map node_t (PyFloat K) × State K :=
  let st0 : State K := ⟨st.G, ∅, ∅, st.local_constraint_rec⟩
  let nodes_list := requested st.G nodes
  if (!is_directed st.G) && weight.isNone then
    (nodes_list.foldl (fun (es : Map node_t (PyFloat K)) v =>
        if map_size (py_getitem st0.G v) = 0 then es.insert v PyFloat.nan
        else
          let E := remove_node (ego_subgraph st0.G v) v
          let size : K := (number_of_edges E : K)
          es.insert v (float_sub (py_len E : K) (float_div (2 * size) (py_len E : K)))) ∅, st0)
  else
    let weight_key := weight_to_string weight
    nodes_list.foldl (fun (acc : Map node_t (PyFloat K) × State K) v =>
        if map_size (py_getitem acc.2.G v) = 0 then (acc.1.insert v PyFloat.nan, acc.2)
        else
          let v_id := v
          let a := adj_index acc.2.G v_id
          let loop := a.1.entries.foldl (fun (r : K × State K) neighbor_info =>
              let u_id := neighbor_info.1
              let t := redundancy r.2 v_id u_id weight_key
              (r.1 + t.1, t.2)) (0, set_G acc.2 a.2)
          (acc.1.insert v (PyFloat.num loop.1), loop.2)) (∅, st0)

/-- The body of the loop of `hierarchy` for one requested node.  The natural
logarithm `log` of the C library is the parameter `log`; the int `n` is converted to
a weight where it meets one.  For `n > 1` the formula is evaluated in the field; the
not-a-number the floating-point source yields when `C` or some `c[w]` is 0 is not
modelled. -/
def hierarchy_body (log : K → K) (weight_key : String)
    (acc : Map node_t (PyFloat K) × State K) (v : node_t) :
    Map node_t (PyFloat K) × State K :=
  let E := ego_subgraph acc.2.G v
  let n : Int := (py_len E : Int) - 1
  let neighbors_of_v := neighbors acc.2.G v
  let loop := neighbors_of_v.foldl (fun (r : (K × Map node_t K) × State K) w =>
      let t1 := local_constraint r.2 v w weight_key
      let t2 := local_constraint t1.2 v w weight_key
      ((r.1.1 + t1.1, r.1.2.insert w t2.1), t2.2)) ((0, ∅), acc.2)
  let C := loop.1.1
  let c := loop.1.2
  let h1 := if n > 1 then
      let hierarchy_sum := neighbors_of_v.foldl (fun (hs : K × Map node_t K) w =>
          let c1 := map_index hs.2 w 0
          let c2 := map_index c1.2 w 0
          (hs.1 + c1.1 / C * (n : K) * log (c2.1 / C * (n : K)) / ((n : K) * log (n : K)),
            c2.2)) (0, c)
      acc.1.insert v (PyFloat.num hierarchy_sum.1)
    else acc.1
  let h2 := if !(map_count h1 v) then h1.insert v (PyFloat.num 0) else h1
  (h2, loop.2)

def hierarchy (log : K → K) (st : State K) (nodes : Option (List node_t))
    (weight : Option String) (_n_workers : Option Nat) : Map node_t (PyFloat K) × State K :=
  let st0 : State K := ⟨st.G, ∅, ∅, ∅⟩
  let weight_key := weight_to_string weight
  let nodes_list := requested st.G nodes
  nodes_list.foldl (hierarchy_body log weight_key) (∅, st0)

/-! ## What a memoized call answers at a state -/

/-- The answer of `normalized_mutual_weight` at a state: the stored value when the
pair is a key of the selected table, the un-memoized value otherwise. -/
def val_nmw (st : State K) (u v : node_t) (weight : String) (norm : norm_t) : K :=
  match (nmw_rec st norm).lookup (u, v) with
  | some x => x
  | none => normalizedMutualWeight st.G u v weight norm

/-- The answer of `local_constraint` at a state. -/
def val_lc (st : State K) (u v : node_t) (weight : String) : K :=
  match st.local_constraint_rec.lookup (u, v) with
  | some x => x
  | none =>
    (val_nmw st u v weight norm_t.sum
      + ((nbrs st.G u).keys.map (fun w =>
          val_nmw st u w weight norm_t.sum * val_nmw st w v weight norm_t.sum)).sum) ^ 2

/-- The answer of `redundancy` at a state. -/
def val_red (st : State K) (u v : node_t) (weight : String) : K :=
  1 - ((nbrs st.G u).keys.map (fun w =>
        val_nmw st u w weight norm_t.sum * val_nmw st v w weight norm_t.max)).sum

/-- The state `st` is reachable from `st0` by calls of the engine with one weight
key: every neighbour map is the same, the tables of `st0` are kept, and every entry
of a table of `st` is the answer the call had at `st0`. -/
structure Ext (weight : String) (st0 st : State K) : Prop where
  nbrs_eq : ∀ u, nbrs st.G u = nbrs st0.G u
  node_eq : st.G.node = st0.G.node
  directed_eq : st.G.directed = st0.G.directed
  nmw_mono : ∀ norm k x, (nmw_rec st0 norm).lookup k = some x →
    (nmw_rec st norm).lookup k = some x
  nmw_ok : ∀ norm k x, (nmw_rec st norm).lookup k = some x →
    x = val_nmw st0 k.1 k.2 weight norm
  lc_mono : ∀ k x, st0.local_constraint_rec.lookup k = some x →
    st.local_constraint_rec.lookup k = some x
  lc_ok : ∀ k x, st.local_constraint_rec.lookup k = some x → x = val_lc st0 k.1 k.2 weight

/-- The answer of `compute_constraint_of_v` at a state. -/
def val_constraint (st : State K) (v : node_t) (weight : String) : PyFloat K :=
  if map_size (nbrs st.G v) = 0 then PyFloat.nan
  else PyFloat.num (((nbrs st.G v).keys.map (fun w => val_lc st v w weight)).sum)

/-- The value `effective_size` stores for a node in the weighted-or-directed branch. -/
def val_es_general (st : State K) (v : node_t) (weight : String) : PyFloat K :=
  if map_size (nbrs st.G v) = 0 then PyFloat.nan
  else PyFloat.num (((nbrs st.G v).keys.map (fun u => val_red st v u weight)).sum)

/-- The value `effective_size` stores for a node in the unweighted undirected branch. -/
def val_es_plain (G : Graph K) (v : node_t) : PyFloat K :=
  if map_size (py_getitem G v) = 0 then PyFloat.nan
  else float_sub (py_len (remove_node (ego_subgraph G v) v) : K)
    (float_div (2 * (number_of_edges (remove_node (ego_subgraph G v) v) : K))
      (py_len (remove_node (ego_subgraph G v) v) : K))

/-- An edge without attributes. -/
def plain : edge_attr_dict_factory ℚ := ∅

/-- An edge with attribute `w = x`. -/
def w_attr (x : ℚ) : edge_attr_dict_factory ℚ := ⟨[⟨"w", x⟩], by simp [List.NodupKeys]⟩

/-- A state with empty tables. -/
def fresh (G : Graph ℚ) : State ℚ := ⟨G, ∅, ∅, ∅⟩

/-- The unweighted undirected star with centre 0 and leaves 1, 2, 3. -/
def star_graph : Graph ℚ :=
  ⟨[0, 1, 2, 3],
    ⟨[⟨0, ⟨[⟨1, plain⟩, ⟨2, plain⟩, ⟨3, plain⟩], by simp [List.NodupKeys]⟩⟩,
      ⟨1, ⟨[⟨0, plain⟩], by simp [List.NodupKeys]⟩⟩,
      ⟨2, ⟨[⟨0, plain⟩], by simp [List.NodupKeys]⟩⟩,
      ⟨3, ⟨[⟨0, plain⟩], by simp [List.NodupKeys]⟩⟩], by simp [List.NodupKeys]⟩, false⟩

/-- Two nodes joined in both directions by edges with `w = 3`. -/
def two_node : Graph ℚ :=
  ⟨[1, 2],
    ⟨[⟨1, ⟨[⟨2, w_attr 3⟩], by simp [List.NodupKeys]⟩⟩,
      ⟨2, ⟨[⟨1, w_attr 3⟩], by simp [List.NodupKeys]⟩⟩], by simp [List.NodupKeys]⟩, false⟩

/-- The unweighted undirected triangle on 1, 2, 3. -/
def triangle : Graph ℚ :=
  ⟨[1, 2, 3],
    ⟨[⟨1, ⟨[⟨2, plain⟩, ⟨3, plain⟩], by simp [List.NodupKeys]⟩⟩,
      ⟨2, ⟨[⟨1, plain⟩, ⟨3, plain⟩], by simp [List.NodupKeys]⟩⟩,
      ⟨3, ⟨[⟨1, plain⟩, ⟨2, plain⟩], by simp [List.NodupKeys]⟩⟩], by simp [List.NodupKeys]⟩, false⟩

/-- The single node 5 without edges. -/
def isolated : Graph ℚ := ⟨[5], ⟨[⟨5, ∅⟩], by simp [List.NodupKeys]⟩, false⟩

/-- A call of one of the memoizing functions of the engine. -/
inductive Call where
  | nmw : node_t → node_t → norm_t → Call
  | lc : node_t → node_t → Call
  | red : node_t → node_t → Call
  | cc : node_t → Call

/-- The state after one call with the weight key `weight`. -/
def step (weight : String) (st : State K) : Call → State K
  | Call.nmw u v norm => (normalized_mutual_weight st u v weight norm).2
  | Call.lc u v => (local_constraint st u v weight).2
  | Call.red u v => (redundancy st u v weight).2
  | Call.cc v => (compute_constraint_of_v st v weight).2

/-- The state after a finite sequence of calls with one weight key. -/
def run (weight : String) (st : State K) (calls : List Call) : State K :=
  calls.foldl (step weight) st

/-- The maximum of the mutual weights of `u` towards its neighbours, as the
specification words it; 0 stands for the maximum over no neighbour. -/
def neighborMax (G : Graph K) (u : node_t) (weight : String) : K :=
  match (nbrs G u).keys with
  | [] => 0
  | a :: t => t.foldl (fun s w => max s (mutualWeight G u w weight)) (mutualWeight G u a weight)

/-- Two nodes joined in both directions by edges with `w = -2`. -/
def negative_pair : Graph ℚ :=
  ⟨[1, 2],
    ⟨[⟨1, ⟨[⟨2, w_attr (-2)⟩], by simp [List.NodupKeys]⟩⟩,
      ⟨2, ⟨[⟨1, w_attr (-2)⟩], by simp [List.NodupKeys]⟩⟩], by simp [List.NodupKeys]⟩, false⟩

/-- The unweighted undirected triangle on 1, 2, 3 with real weights. -/
def triangle_real : Graph ℝ :=
  ⟨[1, 2, 3],
    ⟨[⟨1, ⟨[⟨2, ∅⟩, ⟨3, ∅⟩], by simp [List.NodupKeys]⟩⟩,
      ⟨2, ⟨[⟨1, ∅⟩, ⟨3, ∅⟩], by simp [List.NodupKeys]⟩⟩,
      ⟨3, ⟨[⟨1, ∅⟩, ⟨2, ∅⟩], by simp [List.NodupKeys]⟩⟩], by simp [List.NodupKeys]⟩, false⟩

/-! ## Simple unweighted undirected graphs -/

/-- Whether `b` is a key of the neighbour map of `a`. -/
def adjacent (G : Graph K) (a b : node_t) : Bool := ((nbrs G a).lookup b).isSome

/-- Every stored edge is stored in the opposite direction too. -/
def symmetric_adj (G : Graph K) : Prop :=
  ∀ e ∈ G.adj.entries, ∀ f ∈ e.2.entries, adjacent G f.1 e.1 = true

/-- No node is its own neighbour. -/
def loop_free (G : Graph K) : Prop :=
  ∀ e ∈ G.adj.entries, adjacent G e.1 e.1 = false

/-- No edge carries the attribute `key`. -/
def unweighted (G : Graph K) (key : String) : Prop :=
  ∀ e ∈ G.adj.entries, ∀ f ∈ e.2.entries, f.2.lookup key = none

/-! ## Lemmas on maps -/

theorem float_sub_div_of_ne (a b c : K) (hc : c ≠ 0) :
    float_sub a (float_div b c) = PyFloat.num (a - b / c) := by
  unfold float_div
  rw [if_neg hc]
  rfl

theorem float_sub_div_nan_iff (a b c : K) :
    float_sub a (float_div b c) = PyFloat.nan ↔ (c = 0 ∧ b = 0) := by
  unfold float_div
  by_cases hc : c = 0
  · by_cases hb : b = 0
    · simp [hc, hb, float_sub]
    · by_cases hp : 0 < b
      · simp [hc, hb, hp, float_sub]
      · simp [hc, hb, hp, float_sub]
  · simp [hc, float_sub]

theorem replace_lookup_self {κ ν : Type} [DecidableEq κ] (m : Map κ ν) (k : κ) (x : ν)
    (h : m.lookup k = some x) : m.replace k x = m := by
  apply AList.ext
  have hmem : (⟨k, x⟩ : Sigma fun _ : κ => ν) ∈ m.entries :=
    (AList.mem_lookup_iff).1 h
  exact List.kreplace_self m.nodupKeys hmem

theorem directed_term_eq (G : Graph K) (u v : node_t) (weight : String) :
    directed_term G.adj u v weight = (edgeWeight G u v weight, G.adj) := by
  unfold directed_term edgeWeight nbrs map_count
  cases hu : G.adj.lookup u with
  | none => simp
  | some au =>
    simp only [map_index, hu, Option.isSome_some, if_true, Option.getD_some]
    cases hv : au.lookup v with
    | none => simp
    | some guv =>
      have e2 : adj_index2 G.adj u v = (guv, G.adj) := by
        simp [adj_index2, map_index, hu, hv, replace_lookup_self]
      simp only [Option.isSome_some, if_true, e2]
      cases hw : guv.lookup weight with
      | none => simp
      | some x =>
        simp [edge_attr_index, map_index, hw, hu, hv, replace_lookup_self]

theorem mutual_weight_eq (G : Graph K) (u v : node_t) (weight : String) :
    mutual_weight G u v weight = (mutualWeight G u v weight, G) := by
  unfold mutual_weight mutualWeight
  simp [directed_term_eq]


/-! ## The graph is only extended by keys with an empty neighbour map -/

theorem adj_index_fst (G : Graph K) (u : node_t) : (adj_index G u).1 = nbrs G u := by
  unfold adj_index map_index nbrs
  cases h : G.adj.lookup u <;> simp

theorem nbrs_adj_index (G : Graph K) (u x : node_t) : nbrs (adj_index G u).2 x = nbrs G x := by
  unfold adj_index map_index nbrs
  cases h : G.adj.lookup u with
  | some m => simp
  | none =>
    by_cases hx : x = u
    · subst hx
      simp [AList.lookup_insert, h]
    · simp [AList.lookup_insert_ne hx]

theorem node_adj_index (G : Graph K) (u : node_t) : (adj_index G u).2.node = G.node := rfl

theorem directed_adj_index (G : Graph K) (u : node_t) :
    (adj_index G u).2.directed = G.directed := rfl

theorem edgeWeight_congr {G H : Graph K} (h : ∀ u, nbrs G u = nbrs H u) (a b : node_t)
    (weight : String) : edgeWeight G a b weight = edgeWeight H a b weight := by
  unfold edgeWeight
  rw [h]

theorem mutualWeight_congr {G H : Graph K} (h : ∀ u, nbrs G u = nbrs H u) (a b : node_t)
    (weight : String) : mutualWeight G a b weight = mutualWeight H a b weight := by
  unfold mutualWeight
  rw [edgeWeight_congr h, edgeWeight_congr h]

theorem scaleOf_congr {G H : Graph K} (h : ∀ u, nbrs G u = nbrs H u) (u : node_t)
    (weight : String) (norm : norm_t) : scaleOf G u weight norm = scaleOf H u weight norm := by
  cases norm <;> simp only [scaleOf, h, mutualWeight_congr h]

theorem normalizedMutualWeight_congr {G H : Graph K} (h : ∀ u, nbrs G u = nbrs H u)
    (u v : node_t) (weight : String) (norm : norm_t) :
    normalizedMutualWeight G u v weight norm = normalizedMutualWeight H u v weight norm := by
  unfold normalizedMutualWeight
  rw [scaleOf_congr h, mutualWeight_congr h]

/-! ## The scale loop -/

theorem foldl_add_eq_sum {α : Type} (f : α → K) (l : List α) (s : K) :
    l.foldl (fun acc w => acc + f w) s = s + (l.map f).sum := by
  induction l generalizing s with
  | nil => simp
  | cons a l ih => simp [ih, add_assoc]

theorem scale_loop_eq (G : Graph K) (u : node_t) (weight : String) (norm : norm_t)
    (l : List (Sigma fun _ : node_t => edge_attr_dict_factory K)) (acc : K) :
    l.foldl (fun (acc : K × Graph K) w =>
        ((if norm = norm_t.sum then acc.1 + mutualWeight acc.2 u w.1 weight
          else max acc.1 (mutualWeight acc.2 u w.1 weight)), acc.2)) (acc, G)
      = ((l.map Sigma.fst).foldl (fun s w =>
          if norm = norm_t.sum then s + mutualWeight G u w weight
          else max s (mutualWeight G u w weight)) acc, G) := by
  induction l generalizing acc with
  | nil => rfl
  | cons a l ih =>
    simp only [List.foldl_cons, List.map_cons]
    exact ih _

theorem scale_fold_eq (G : Graph K) (u : node_t) (weight : String) (norm : norm_t) :
    (nbrs G u).keys.foldl (fun s w =>
          if norm = norm_t.sum then s + mutualWeight G u w weight
          else max s (mutualWeight G u w weight)) 0 = scaleOf G u weight norm := by
  cases norm with
  | sum => simp [scaleOf, foldl_add_eq_sum]
  | max => simp [scaleOf]

/-- A call on a pair that is not a key computes the un-memoized value, stores it
under the pair, and leaves the graph with `u` as a key. -/
theorem nmw_fresh (st : State K) (u v : node_t) (weight : String) (norm : norm_t)
    (h : (nmw_rec st norm).lookup (u, v) = none) :
    normalized_mutual_weight st u v weight norm
      = (normalizedMutualWeight st.G u v weight norm,
          nmw_rec_store (set_G st (adj_index st.G u).2) norm (u, v)
            (normalizedMutualWeight st.G u v weight norm)) := by
  have hk : (adj_index st.G u).1.entries.map Sigma.fst = (nbrs st.G u).keys := by
    rw [adj_index_fst]; rfl
  have hc : ∀ x, nbrs (adj_index st.G u).2 x = nbrs st.G x := nbrs_adj_index st.G u
  unfold normalized_mutual_weight
  simp only [h, scale_loop_eq, mutual_weight_eq, hk]
  have hs : (nbrs st.G u).keys.foldl (fun s w =>
          if norm = norm_t.sum then s + mutualWeight (adj_index st.G u).2 u w weight
          else max s (mutualWeight (adj_index st.G u).2 u w weight)) 0
        = scaleOf st.G u weight norm := by
    rw [← scale_fold_eq]
    congr 1
    funext s w
    rw [mutualWeight_congr hc]
  rw [hs]
  unfold normalizedMutualWeight
  by_cases h0 : scaleOf st.G u weight norm = 0
  · simp [h0]
  · simp [h0, mutualWeight_congr hc]

/-! ## Reachable states -/

theorem Ext.refl (weight : String) (st : State K) : Ext weight st st where
  nbrs_eq := fun _ => rfl
  node_eq := rfl
  directed_eq := rfl
  nmw_mono := fun _ _ _ h => h
  nmw_ok := fun norm k x h => by
    unfold val_nmw
    rw [h]
  lc_mono := fun _ _ h => h
  lc_ok := fun k x h => by
    unfold val_lc
    rw [h]

theorem Ext.adj_index {weight : String} {st0 st : State K} (h : Ext weight st0 st)
    (u : node_t) : Ext weight st0 (set_G st (adj_index st.G u).2) where
  nbrs_eq := fun x => by
    show nbrs (StructuralHoles.adj_index st.G u).2 x = _
    rw [nbrs_adj_index, h.nbrs_eq]
  node_eq := h.node_eq
  directed_eq := h.directed_eq
  nmw_mono := h.nmw_mono
  nmw_ok := h.nmw_ok
  lc_mono := h.lc_mono
  lc_ok := h.lc_ok

theorem nmw_rec_store_same (st : State K) (norm : norm_t) (e : node_t × node_t) (x : K) :
    nmw_rec (nmw_rec_store st norm e x) norm = (nmw_rec st norm).insert e x := by
  cases norm <;> simp [nmw_rec, nmw_rec_store]

theorem nmw_rec_store_other (st : State K) (norm other : norm_t) (e : node_t × node_t) (x : K)
    (h : other ≠ norm) : nmw_rec (nmw_rec_store st norm e x) other = nmw_rec st other := by
  cases norm <;> cases other <;> simp_all [nmw_rec, nmw_rec_store]

theorem nmw_rec_set_G (st : State K) (G : Graph K) (norm : norm_t) :
    nmw_rec (set_G st G) norm = nmw_rec st norm := rfl

theorem nmw_rec_store_G (st : State K) (norm : norm_t) (e : node_t × node_t) (x : K) :
    (nmw_rec_store st norm e x).G = st.G := by
  cases norm <;> rfl

theorem nmw_rec_store_lc (st : State K) (norm : norm_t) (e : node_t × node_t) (x : K) :
    (nmw_rec_store st norm e x).local_constraint_rec = st.local_constraint_rec := by
  cases norm <;> rfl

theorem val_nmw_of_none {weight : String} {st0 st : State K} (h : Ext weight st0 st)
    (u v : node_t) (norm : norm_t) (hl : (nmw_rec st norm).lookup (u, v) = none) :
    val_nmw st0 u v weight norm = normalizedMutualWeight st.G u v weight norm := by
  unfold val_nmw
  cases h0 : (nmw_rec st0 norm).lookup (u, v) with
  | some x => rw [h.nmw_mono norm (u, v) x h0] at hl; cases hl
  | none => exact (normalizedMutualWeight_congr h.nbrs_eq u v weight norm).symm

/-- At a reachable state `normalized_mutual_weight` answers what it answered at the
start, and the state stays reachable. -/
theorem nmw_ext {weight : String} {st0 st : State K} (h : Ext weight st0 st)
    (u v : node_t) (norm : norm_t) :
    (normalized_mutual_weight st u v weight norm).1 = val_nmw st0 u v weight norm
      ∧ Ext weight st0 (normalized_mutual_weight st u v weight norm).2 := by
  cases hl : (nmw_rec st norm).lookup (u, v) with
  | some x =>
    have e : normalized_mutual_weight st u v weight norm = (x, st) := by
      unfold normalized_mutual_weight
      simp only [hl]
    rw [e]
    exact ⟨h.nmw_ok norm (u, v) x hl, h⟩
  | none =>
    rw [nmw_fresh st u v weight norm hl]
    have hv := val_nmw_of_none h u v norm hl
    refine ⟨hv.symm, ?_⟩
    have h1 := h.adj_index u
    constructor
    · intro x
      rw [nmw_rec_store_G]
      exact h1.nbrs_eq x
    · rw [nmw_rec_store_G]; exact h1.node_eq
    · rw [nmw_rec_store_G]; exact h1.directed_eq
    · intro other k x hk
      by_cases ho : other = norm
      · subst ho
        rw [nmw_rec_store_same, nmw_rec_set_G]
        have hk2 := h.nmw_mono other k x hk
        have hne : k ≠ (u, v) := by
          intro hc
          rw [hc, hl] at hk2
          cases hk2
        rw [AList.lookup_insert_ne hne]
        exact hk2
      · rw [nmw_rec_store_other _ _ _ _ _ ho, nmw_rec_set_G]
        exact h.nmw_mono other k x hk
    · intro other k x hk
      by_cases ho : other = norm
      · subst ho
        rw [nmw_rec_store_same, nmw_rec_set_G] at hk
        by_cases hke : k = (u, v)
        · subst hke
          rw [AList.lookup_insert] at hk
          cases hk
          exact hv.symm
        · rw [AList.lookup_insert_ne hke] at hk
          exact h.nmw_ok other k x hk
      · rw [nmw_rec_store_other _ _ _ _ _ ho, nmw_rec_set_G] at hk
        exact h.nmw_ok other k x hk
    · intro k x hk
      rw [nmw_rec_store_lc]
      exact h.lc_mono k x hk
    · intro k x hk
      rw [nmw_rec_store_lc] at hk
      exact h.lc_ok k x hk

/-- A loop that adds one answer per element keeps the state reachable and
accumulates the sum of the answers. -/
theorem foldl_ext {α : Type} {weight : String} {st0 : State K} (val : α → K)
    (f : K × State K → α → K × State K)
    (hf : ∀ acc a, Ext weight st0 acc.2 →
      (f acc a).1 = acc.1 + val a ∧ Ext weight st0 (f acc a).2)
    (l : List α) (acc : K × State K) (h : Ext weight st0 acc.2) :
    (l.foldl f acc).1 = acc.1 + (l.map val).sum ∧ Ext weight st0 (l.foldl f acc).2 := by
  induction l generalizing acc with
  | nil => simpa using h
  | cons a l ih =>
    have h1 := hf acc a h
    have h2 := ih (f acc a) h1.2
    simp only [List.foldl_cons, List.map_cons, List.sum_cons]
    refine ⟨?_, h2.2⟩
    rw [h2.1, h1.1, add_assoc]

theorem sum_entries_eq_sum_keys {ν : Type} (m : Map node_t ν) (f : node_t → K) :
    (m.entries.map (fun w => f w.1)).sum = (m.keys.map f).sum := by
  unfold AList.keys List.keys
  rw [List.map_map]
  rfl

theorem local_constraint_none (st : State K) (u v : node_t) (weight : String)
    (hl : st.local_constraint_rec.lookup (u, v) = none) :
    local_constraint st u v weight =
      (let direct := normalized_mutual_weight st u v weight norm_t.sum
       let a := adj_index direct.2.G u
       let loop := a.1.entries.foldl (fun (acc : K × State K) w =>
          (acc.1 + (normalized_mutual_weight acc.2 u w.1 weight norm_t.sum).1
              * (normalized_mutual_weight
                  (normalized_mutual_weight acc.2 u w.1 weight norm_t.sum).2
                  w.1 v weight norm_t.sum).1,
            (normalized_mutual_weight
              (normalized_mutual_weight acc.2 u w.1 weight norm_t.sum).2
              w.1 v weight norm_t.sum).2)) (0, set_G direct.2 a.2)
       ((direct.1 + loop.1) ^ 2,
        ⟨loop.2.G, loop.2.sum_nmw_rec, loop.2.max_nmw_rec,
          loop.2.local_constraint_rec.insert (u, v) ((direct.1 + loop.1) ^ 2)⟩)) := by
  unfold local_constraint
  simp only [hl]

/-- At a reachable state `local_constraint` answers what it answered at the start,
and the state stays reachable. -/
theorem lc_ext {weight : String} {st0 st : State K} (h : Ext weight st0 st) (u v : node_t) :
    (local_constraint st u v weight).1 = val_lc st0 u v weight
      ∧ Ext weight st0 (local_constraint st u v weight).2 := by
  cases hl : st.local_constraint_rec.lookup (u, v) with
  | some r =>
    have e : local_constraint st u v weight = (r, st) := by
      unfold local_constraint
      simp only [hl]
    rw [e]
    exact ⟨h.lc_ok (u, v) r hl, h⟩
  | none =>
    have h0 : st0.local_constraint_rec.lookup (u, v) = none := by
      cases h00 : st0.local_constraint_rec.lookup (u, v) with
      | none => rfl
      | some x => rw [h.lc_mono (u, v) x h00] at hl; cases hl
    obtain ⟨hd1, hd2⟩ := nmw_ext h u v norm_t.sum
    have ha := hd2.adj_index u
    have hkeys : (adj_index (normalized_mutual_weight st u v weight norm_t.sum).2.G u).1
        = nbrs st0.G u := by
      rw [adj_index_fst, hd2.nbrs_eq]
    have key := foldl_ext
      (fun w : (Sigma fun _ : node_t => edge_attr_dict_factory K) =>
        val_nmw st0 u w.1 weight norm_t.sum * val_nmw st0 w.1 v weight norm_t.sum)
      (fun (acc : K × State K) w =>
          (acc.1 + (normalized_mutual_weight acc.2 u w.1 weight norm_t.sum).1
              * (normalized_mutual_weight
                  (normalized_mutual_weight acc.2 u w.1 weight norm_t.sum).2
                  w.1 v weight norm_t.sum).1,
            (normalized_mutual_weight
              (normalized_mutual_weight acc.2 u w.1 weight norm_t.sum).2
              w.1 v weight norm_t.sum).2))
      (fun acc w hacc => by
        obtain ⟨x1, x2⟩ := nmw_ext hacc u w.1 norm_t.sum
        obtain ⟨y1, y2⟩ := nmw_ext x2 w.1 v norm_t.sum
        exact ⟨by simp only [x1, y1], y2⟩)
      (nbrs st0.G u).entries
      (0, set_G (normalized_mutual_weight st u v weight norm_t.sum).2
        (adj_index (normalized_mutual_weight st u v weight norm_t.sum).2.G u).2) ha
    have hval : val_lc st0 u v weight
        = (val_nmw st0 u v weight norm_t.sum
            + ((nbrs st0.G u).keys.map (fun w =>
                val_nmw st0 u w weight norm_t.sum * val_nmw st0 w v weight norm_t.sum)).sum) ^ 2 := by
      unfold val_lc
      rw [h0]
    rw [local_constraint_none st u v weight hl]
    simp only [hkeys]
    obtain ⟨k1, k2⟩ := key
    rw [sum_entries_eq_sum_keys (nbrs st0.G u)
      (fun w => val_nmw st0 u w weight norm_t.sum * val_nmw st0 w v weight norm_t.sum),
      zero_add] at k1
    refine ⟨by rw [hval, k1, hd1], ?_⟩
    constructor
    · exact k2.nbrs_eq
    · exact k2.node_eq
    · exact k2.directed_eq
    · exact k2.nmw_mono
    · exact k2.nmw_ok
    · intro k x hk
      have hk2 := k2.lc_mono k x hk
      have hne : k ≠ (u, v) := by
        intro hc
        rw [hc, h0] at hk
        cases hk
      show AList.lookup k (AList.insert (u, v) _ _) = some x
      rw [AList.lookup_insert_ne hne]
      exact hk2
    · intro k x hk
      change AList.lookup k (AList.insert (u, v) _ _) = some x at hk
      by_cases hke : k = (u, v)
      · subst hke
        rw [AList.lookup_insert] at hk
        cases hk
        rw [hval, k1, hd1]
      · rw [AList.lookup_insert_ne hke] at hk
        exact k2.lc_ok k x hk

theorem Ext.set_G {weight : String} {st0 st : State K} (h : Ext weight st0 st)
    (G : Graph K) (hn : ∀ x, nbrs G x = nbrs st.G x) (hnode : G.node = st.G.node)
    (hdir : G.directed = st.G.directed) : Ext weight st0 (set_G st G) where
  nbrs_eq := fun x => (hn x).trans (h.nbrs_eq x)
  node_eq := hnode.trans h.node_eq
  directed_eq := hdir.trans h.directed_eq
  nmw_mono := h.nmw_mono
  nmw_ok := h.nmw_ok
  lc_mono := h.lc_mono
  lc_ok := h.lc_ok

/-- At a reachable state `compute_constraint_of_v` answers what it answered at the
start. -/
theorem compute_constraint_of_v_ext {weight : String} {st0 st : State K}
    (h : Ext weight st0 st) (v : node_t) :
    (compute_constraint_of_v st v weight).1 = (v, val_constraint st0 v weight)
      ∧ Ext weight st0 (compute_constraint_of_v st v weight).2 := by
  have ha : (adj_index st.G v).1 = nbrs st0.G v := by rw [adj_index_fst, h.nbrs_eq]
  have hb : (adj_index (adj_index st.G v).2 v).1 = nbrs st0.G v := by
    rw [adj_index_fst, nbrs_adj_index, h.nbrs_eq]
  have hbE : Ext weight st0 (set_G st (adj_index (adj_index st.G v).2 v).2) :=
    h.set_G _ (fun x => by rw [nbrs_adj_index, nbrs_adj_index]) rfl rfl
  have key := foldl_ext
    (fun n : (Sigma fun _ : node_t => edge_attr_dict_factory K) => val_lc st0 v n.1 weight)
    (fun (acc : K × State K) n =>
      (acc.1 + (local_constraint acc.2 v n.1 weight).1, (local_constraint acc.2 v n.1 weight).2))
    (fun acc n hacc => by
      obtain ⟨x1, x2⟩ := lc_ext hacc v n.1
      exact ⟨by simp only [x1], x2⟩)
    (nbrs st0.G v).entries (0, set_G st (adj_index (adj_index st.G v).2 v).2) hbE
  obtain ⟨k1, k2⟩ := key
  rw [sum_entries_eq_sum_keys (nbrs st0.G v) (fun w => val_lc st0 v w weight), zero_add] at k1
  unfold compute_constraint_of_v val_constraint
  simp only [ha, hb]
  by_cases hz : map_size (nbrs st0.G v) = 0
  · simp only [hz, if_true, true_and]
    exact h.adj_index v
  · simp only [hz, if_false]
    exact ⟨by rw [k1], k2⟩

/-! ## Result dictionaries -/

theorem foldl_insert_lookup {ν : Type} (val : node_t → ν) (l : List (node_t × ν))
    (d : Map node_t ν) (hd : ∀ x y, d.lookup x = some y → y = val x)
    (hl : ∀ p ∈ l, p.2 = val p.1) (v : node_t)
    (hv : v ∈ l.map Prod.fst ∨ (d.lookup v).isSome = true) :
    (l.foldl (fun d p => d.insert p.1 p.2) d).lookup v = some (val v) := by
  induction l generalizing d with
  | nil =>
    rcases hv with hv | hv
    · simp at hv
    · cases hx : d.lookup v with
      | none => rw [hx] at hv; cases hv
      | some y =>
        have hy := hd v y hx
        subst hy
        exact hx
  | cons p l ih =>
    simp only [List.foldl_cons]
    apply ih
    · intro x y hxy
      by_cases hxp : x = p.1
      · subst hxp
        rw [AList.lookup_insert] at hxy
        cases hxy
        exact hl p (List.mem_cons_self _ _)
      · rw [AList.lookup_insert_ne hxp] at hxy
        exact hd x y hxy
    · intro q hq
      exact hl q (List.mem_cons_of_mem _ hq)
    · by_cases hvp : v = p.1
      · right
        subst hvp
        rw [AList.lookup_insert]
        rfl
      · rcases hv with hv | hv
        · left
          simp only [List.map_cons, List.mem_cons] at hv
          rcases hv with hv | hv
          · exact absurd hv hvp
          · exact hv
        · right
          rw [AList.lookup_insert_ne hvp]
          exact hv

theorem py_dict_lookup {ν : Type} (val : node_t → ν) (l : List node_t) (v : node_t)
    (hv : v ∈ l) : (py_dict (l.map (fun x => (x, val x)))).lookup v = some (val v) := by
  unfold py_dict
  apply foldl_insert_lookup val
  · intro x y hxy
    simp at hxy
  · intro p hp
    simp only [List.mem_map] at hp
    obtain ⟨x, _, rfl⟩ := hp
    rfl
  · left
    simp only [List.map_map, List.mem_map]
    exact ⟨v, hv, rfl⟩

/-- A loop that appends one answered pair per node. -/
theorem foldl_collect {ν : Type} (weight : String) (st0 : State K) (val : node_t → ν)
    (f : List (node_t × ν) × State K → node_t → List (node_t × ν) × State K)
    (hf : ∀ acc v, Ext weight st0 acc.2 →
      (f acc v).1 = acc.1 ++ [(v, val v)] ∧ Ext weight st0 (f acc v).2)
    (l : List node_t) (acc : List (node_t × ν) × State K) (h : Ext weight st0 acc.2) :
    (l.foldl f acc).1 = acc.1 ++ l.map (fun v => (v, val v))
      ∧ Ext weight st0 (l.foldl f acc).2 := by
  induction l generalizing acc with
  | nil => simpa using h
  | cons a l ih =>
    have h1 := hf acc a h
    have h2 := ih (f acc a) h1.2
    simp only [List.foldl_cons, List.map_cons]
    refine ⟨?_, h2.2⟩
    rw [h2.1, h1.1, List.append_assoc]
    rfl

/-- A loop that stores one answer per node in a dictionary. -/
theorem foldl_store {ν : Type} (weight : String) (st0 : State K) (val : node_t → ν)
    (f : Map node_t ν × State K → node_t → Map node_t ν × State K)
    (hf : ∀ acc v, Ext weight st0 acc.2 →
      (f acc v).1 = acc.1.insert v (val v) ∧ Ext weight st0 (f acc v).2)
    (l : List node_t) (acc : Map node_t ν × State K) (h : Ext weight st0 acc.2) :
    (l.foldl f acc).1 = (l.map (fun v => (v, val v))).foldl (fun d p => d.insert p.1 p.2) acc.1
      ∧ Ext weight st0 (l.foldl f acc).2 := by
  induction l generalizing acc with
  | nil => simpa using h
  | cons a l ih =>
    have h1 := hf acc a h
    have h2 := ih (f acc a) h1.2
    simp only [List.foldl_cons, List.map_cons]
    refine ⟨?_, h2.2⟩
    rw [h2.1, h1.1]

/-! ## Empty tables -/

theorem val_nmw_empty (G : Graph K) (lc : rec_t K) (u v : node_t) (weight : String)
    (norm : norm_t) :
    val_nmw (⟨G, ∅, ∅, lc⟩ : State K) u v weight norm = normalizedMutualWeight G u v weight norm := by
  unfold val_nmw nmw_rec
  cases norm <;> simp

theorem val_lc_empty (G : Graph K) (u v : node_t) (weight : String) :
    val_lc (⟨G, ∅, ∅, ∅⟩ : State K) u v weight = localConstraint G u v weight := by
  unfold val_lc localConstraint
  simp [val_nmw_empty]

theorem val_red_empty (G : Graph K) (lc : rec_t K) (u v : node_t) (weight : String) :
    val_red (⟨G, ∅, ∅, lc⟩ : State K) u v weight = redundancyOf G u v weight := by
  unfold val_red redundancyOf
  simp [val_nmw_empty]

theorem constraint_lookup (st : State K) (nodes : Option (List node_t))
    (weight : Option String) (n_workers : Option Nat) (v : node_t)
    (hv : v ∈ requested st.G nodes) :
    (constraint st nodes weight n_workers).1.lookup v
      = some (val_constraint (⟨st.G, ∅, ∅, ∅⟩ : State K) v (weight_to_string weight)) := by
  have key := foldl_collect (weight_to_string weight) (⟨st.G, ∅, ∅, ∅⟩ : State K)
    (fun v => val_constraint (⟨st.G, ∅, ∅, ∅⟩ : State K) v (weight_to_string weight))
    (fun (acc : List (node_t × PyFloat K) × State K) v =>
      (acc.1 ++ [((compute_constraint_of_v acc.2 v (weight_to_string weight)).1.1,
          (compute_constraint_of_v acc.2 v (weight_to_string weight)).1.2)],
        (compute_constraint_of_v acc.2 v (weight_to_string weight)).2))
    (fun acc v hacc => by
      obtain ⟨x1, x2⟩ := compute_constraint_of_v_ext hacc v
      exact ⟨by simp only [x1], x2⟩)
    (requested st.G nodes) ([], ⟨st.G, ∅, ∅, ∅⟩) (Ext.refl _ _)
  obtain ⟨k1, _⟩ := key
  unfold constraint
  simp only []
  rw [k1, List.nil_append]
  exact py_dict_lookup _ _ v hv

/-! ## redundancy and effective_size -/

/-- At a reachable state `redundancy` answers what it answered at the start. -/
theorem redundancy_ext {weight : String} {st0 st : State K} (h : Ext weight st0 st)
    (u v : node_t) :
    (redundancy st u v weight).1 = val_red st0 u v weight
      ∧ Ext weight st0 (redundancy st u v weight).2 := by
  have ha : (adj_index st.G u).1 = nbrs st0.G u := by rw [adj_index_fst, h.nbrs_eq]
  have key := foldl_ext
    (fun w : (Sigma fun _ : node_t => edge_attr_dict_factory K) =>
      val_nmw st0 u w.1 weight norm_t.sum * val_nmw st0 v w.1 weight norm_t.max)
    (fun (acc : K × State K) w =>
        (acc.1 + (normalized_mutual_weight acc.2 u w.1 weight norm_t.sum).1
            * (normalized_mutual_weight
                (normalized_mutual_weight acc.2 u w.1 weight norm_t.sum).2
                v w.1 weight norm_t.max).1,
          (normalized_mutual_weight
            (normalized_mutual_weight acc.2 u w.1 weight norm_t.sum).2
            v w.1 weight norm_t.max).2))
    (fun acc w hacc => by
      obtain ⟨x1, x2⟩ := nmw_ext hacc u w.1 norm_t.sum
      obtain ⟨y1, y2⟩ := nmw_ext x2 v w.1 norm_t.max
      exact ⟨by simp only [x1, y1], y2⟩)
    (nbrs st0.G u).entries (0, set_G st (adj_index st.G u).2) (h.adj_index u)
  obtain ⟨k1, k2⟩ := key
  rw [sum_entries_eq_sum_keys (nbrs st0.G u)
    (fun w => val_nmw st0 u w weight norm_t.sum * val_nmw st0 v w weight norm_t.max),
    zero_add] at k1
  unfold redundancy val_red
  simp only [ha]
  exact ⟨by rw [k1], k2⟩

theorem effective_size_general_step {weight : String} {st0 st : State K}
    (h : Ext weight st0 st) (v : node_t) :
    ((adj_index st.G v).1.entries.foldl (fun (r : K × State K) neighbor_info =>
        (r.1 + (redundancy r.2 v neighbor_info.1 weight).1,
          (redundancy r.2 v neighbor_info.1 weight).2)) (0, set_G st (adj_index st.G v).2)).1
      = ((nbrs st0.G v).keys.map (fun u => val_red st0 v u weight)).sum
    ∧ Ext weight st0
        ((adj_index st.G v).1.entries.foldl (fun (r : K × State K) neighbor_info =>
          (r.1 + (redundancy r.2 v neighbor_info.1 weight).1,
            (redundancy r.2 v neighbor_info.1 weight).2))
          (0, set_G st (adj_index st.G v).2)).2 := by
  have ha : (adj_index st.G v).1 = nbrs st0.G v := by rw [adj_index_fst, h.nbrs_eq]
  have key := foldl_ext
    (fun n : (Sigma fun _ : node_t => edge_attr_dict_factory K) => val_red st0 v n.1 weight)
    (fun (r : K × State K) neighbor_info =>
        (r.1 + (redundancy r.2 v neighbor_info.1 weight).1,
          (redundancy r.2 v neighbor_info.1 weight).2))
    (fun acc n hacc => by
      obtain ⟨x1, x2⟩ := redundancy_ext hacc v n.1
      exact ⟨by simp only [x1], x2⟩)
    (nbrs st0.G v).entries (0, set_G st (adj_index st.G v).2) (h.adj_index v)
  obtain ⟨k1, k2⟩ := key
  rw [sum_entries_eq_sum_keys (nbrs st0.G v) (fun u => val_red st0 v u weight),
    zero_add] at k1
  rw [ha]
  exact ⟨k1, k2⟩

theorem foldl_insert_map {ν : Type} (val : node_t → ν) (l : List node_t) (d : Map node_t ν) :
    l.foldl (fun d v => d.insert v (val v)) d
      = (l.map (fun v => (v, val v))).foldl (fun d p => d.insert p.1 p.2) d := by
  rw [List.foldl_map]

theorem store_lookup {ν : Type} (val : node_t → ν) (l : List node_t) (v : node_t)
    (hv : v ∈ l) :
    ((l.map (fun x => (x, val x))).foldl (fun d p => d.insert p.1 p.2)
      (∅ : Map node_t ν)).lookup v = some (val v) :=
  py_dict_lookup val l v hv

/-- What `effective_size` stores for a requested node, in either branch. -/
theorem effective_size_lookup (st : State K) (nodes : Option (List node_t))
    (weight : Option String) (n_workers : Option Nat) (v : node_t)
    (hv : v ∈ requested st.G nodes) :
    (effective_size st nodes weight n_workers).1.lookup v
      = some (if ((!is_directed st.G) && weight.isNone) = true then val_es_plain st.G v
          else val_es_general (⟨st.G, ∅, ∅, st.local_constraint_rec⟩ : State K) v
            (weight_to_string weight)) := by
  unfold effective_size
  by_cases hb : ((!is_directed st.G) && weight.isNone) = true
  · simp only [hb, if_true]
    have e : (fun (es : Map node_t (PyFloat K)) v =>
        if map_size (py_getitem st.G v) = 0 then es.insert v PyFloat.nan
        else es.insert v (float_sub (py_len (remove_node (ego_subgraph st.G v) v) : K)
          (float_div (2 * (number_of_edges (remove_node (ego_subgraph st.G v) v) : K))
            (py_len (remove_node (ego_subgraph st.G v) v) : K))))
        = fun es v => es.insert v (val_es_plain st.G v) := by
      funext es x
      unfold val_es_plain
      split <;> rfl
    rw [e, foldl_insert_map]
    exact store_lookup _ _ v hv
  · simp only [hb, if_false]
    have key := foldl_store (weight_to_string weight)
      (⟨st.G, ∅, ∅, st.local_constraint_rec⟩ : State K)
      (fun v => val_es_general (⟨st.G, ∅, ∅, st.local_constraint_rec⟩ : State K) v
        (weight_to_string weight))
      (fun (acc : Map node_t (PyFloat K) × State K) v =>
        if map_size (py_getitem acc.2.G v) = 0 then (acc.1.insert v PyFloat.nan, acc.2)
        else
          (acc.1.insert v (PyFloat.num
            ((adj_index acc.2.G v).1.entries.foldl (fun (r : K × State K) neighbor_info =>
              (r.1 + (redundancy r.2 v neighbor_info.1 (weight_to_string weight)).1,
                (redundancy r.2 v neighbor_info.1 (weight_to_string weight)).2))
              (0, set_G acc.2 (adj_index acc.2.G v).2)).1),
            ((adj_index acc.2.G v).1.entries.foldl (fun (r : K × State K) neighbor_info =>
              (r.1 + (redundancy r.2 v neighbor_info.1 (weight_to_string weight)).1,
                (redundancy r.2 v neighbor_info.1 (weight_to_string weight)).2))
              (0, set_G acc.2 (adj_index acc.2.G v).2)).2))
      (fun acc x hacc => by
        obtain ⟨s1, s2⟩ := effective_size_general_step hacc x
        have hn : py_getitem acc.2.G x = nbrs st.G x := hacc.nbrs_eq x
        unfold val_es_general
        simp only [hn]
        by_cases hz : map_size (nbrs st.G x) = 0
        · simp only [hz, if_true, true_and]
          exact hacc
        · simp only [hz, if_false]
          exact ⟨by rw [s1], s2⟩)
      (requested st.G nodes) (∅, ⟨st.G, ∅, ∅, st.local_constraint_rec⟩) (Ext.refl _ _)
    obtain ⟨k1, _⟩ := key
    exact (congrArg (fun d => AList.lookup v d) k1).trans (store_lookup _ _ v hv)

/-! ## Which table a call touches -/

theorem nmw_same_table (st : State K) (u v : node_t) (weight : String) (norm : norm_t)
    (k : node_t × node_t) :
    ((nmw_rec (normalized_mutual_weight st u v weight norm).2 norm).lookup k).isSome = true
      ↔ (k = (u, v) ∨ ((nmw_rec st norm).lookup k).isSome = true) := by
  cases hl : (nmw_rec st norm).lookup (u, v) with
  | some x =>
    have e : normalized_mutual_weight st u v weight norm = (x, st) := by
      unfold normalized_mutual_weight
      simp only [hl]
    rw [e]
    constructor
    · intro h
      exact Or.inr h
    · rintro (h | h)
      · rw [h, hl]; rfl
      · exact h
  | none =>
    rw [nmw_fresh st u v weight norm hl, nmw_rec_store_same, nmw_rec_set_G]
    by_cases hk : k = (u, v)
    · subst hk
      simp [AList.lookup_insert]
    · rw [AList.lookup_insert_ne hk]
      simp [hk]

theorem nmw_other_table (st : State K) (u v : node_t) (weight : String) (norm other : norm_t)
    (h : other ≠ norm) :
    nmw_rec (normalized_mutual_weight st u v weight norm).2 other = nmw_rec st other := by
  cases hl : (nmw_rec st norm).lookup (u, v) with
  | some x =>
    have e : normalized_mutual_weight st u v weight norm = (x, st) := by
      unfold normalized_mutual_weight
      simp only [hl]
    rw [e]
  | none =>
    rw [nmw_fresh st u v weight norm hl, nmw_rec_store_other _ _ _ _ _ h, nmw_rec_set_G]

/-- The keys of the two tables along the loop of `redundancy`. -/
theorem redundancy_loop_keys (u v : node_t) (weight : String)
    (l : List (Sigma fun _ : node_t => edge_attr_dict_factory K)) (acc : K × State K)
    (S : List node_t)
    (hs : ∀ k : node_t × node_t, ((nmw_rec acc.2 norm_t.sum).lookup k).isSome = true
      ↔ (k.1 = u ∧ k.2 ∈ S))
    (hm : ∀ k : node_t × node_t, ((nmw_rec acc.2 norm_t.max).lookup k).isSome = true
      ↔ (k.1 = v ∧ k.2 ∈ S)) :
    (∀ k : node_t × node_t,
      ((nmw_rec (l.foldl (fun (acc : K × State K) w =>
        (acc.1 + (normalized_mutual_weight acc.2 u w.1 weight norm_t.sum).1
            * (normalized_mutual_weight
                (normalized_mutual_weight acc.2 u w.1 weight norm_t.sum).2
                v w.1 weight norm_t.max).1,
          (normalized_mutual_weight
            (normalized_mutual_weight acc.2 u w.1 weight norm_t.sum).2
            v w.1 weight norm_t.max).2)) acc).2 norm_t.sum).lookup k).isSome = true
        ↔ (k.1 = u ∧ k.2 ∈ S ++ l.map Sigma.fst))
    ∧ (∀ k : node_t × node_t,
      ((nmw_rec (l.foldl (fun (acc : K × State K) w =>
        (acc.1 + (normalized_mutual_weight acc.2 u w.1 weight norm_t.sum).1
            * (normalized_mutual_weight
                (normalized_mutual_weight acc.2 u w.1 weight norm_t.sum).2
                v w.1 weight norm_t.max).1,
          (normalized_mutual_weight
            (normalized_mutual_weight acc.2 u w.1 weight norm_t.sum).2
            v w.1 weight norm_t.max).2)) acc).2 norm_t.max).lookup k).isSome = true
        ↔ (k.1 = v ∧ k.2 ∈ S ++ l.map Sigma.fst)) := by
  induction l generalizing acc S with
  | nil =>
    simp only [List.foldl_nil, List.map_nil, List.append_nil]
    exact ⟨hs, hm⟩
  | cons w l ih =>
    simp only [List.foldl_cons, List.map_cons]
    have hne : norm_t.sum ≠ norm_t.max := by decide
    have hne2 : norm_t.max ≠ norm_t.sum := by decide
    have step := ih
      (acc.1 + (normalized_mutual_weight acc.2 u w.1 weight norm_t.sum).1
            * (normalized_mutual_weight
                (normalized_mutual_weight acc.2 u w.1 weight norm_t.sum).2
                v w.1 weight norm_t.max).1,
          (normalized_mutual_weight
            (normalized_mutual_weight acc.2 u w.1 weight norm_t.sum).2
            v w.1 weight norm_t.max).2) (S ++ [w.1])
      (by
        intro k
        show ((nmw_rec (normalized_mutual_weight _ v w.1 weight norm_t.max).2
          norm_t.sum).lookup k).isSome = true ↔ _
        rw [nmw_other_table _ _ _ _ _ _ hne, nmw_same_table, hs k]
        rcases k with ⟨k1, k2⟩
        simp only [Prod.mk.injEq, List.mem_append, List.mem_singleton]
        tauto)
      (by
        intro k
        show ((nmw_rec (normalized_mutual_weight _ v w.1 weight norm_t.max).2
          norm_t.max).lookup k).isSome = true ↔ _
        rw [nmw_same_table, nmw_other_table _ _ _ _ _ _ hne2, hm k]
        rcases k with ⟨k1, k2⟩
        simp only [Prod.mk.injEq, List.mem_append, List.mem_singleton]
        tauto)
    simpa [List.append_assoc] using step

/-- The tables after `redundancy` from empty normalized-mutual-weight tables. -/
theorem redundancy_tables (G : Graph K) (lc : rec_t K) (u v : node_t) (weight : String) :
    (∀ k : node_t × node_t,
      (redundancy (⟨G, ∅, ∅, lc⟩ : State K) u v weight).2.sum_nmw_rec.lookup k
        = if k.1 = u ∧ k.2 ∈ (nbrs G u).keys
          then some (normalizedMutualWeight G k.1 k.2 weight norm_t.sum) else none)
    ∧ (∀ k : node_t × node_t,
      (redundancy (⟨G, ∅, ∅, lc⟩ : State K) u v weight).2.max_nmw_rec.lookup k
        = if k.1 = v ∧ k.2 ∈ (nbrs G u).keys
          then some (normalizedMutualWeight G k.1 k.2 weight norm_t.max) else none) := by
  have hE := (redundancy_ext (Ext.refl weight (⟨G, ∅, ∅, lc⟩ : State K)) u v).2
  have hk := redundancy_loop_keys u v weight (adj_index G u).1.entries
    (0, set_G (⟨G, ∅, ∅, lc⟩ : State K) (adj_index G u).2) []
    (by intro k; simp [nmw_rec, set_G]) (by intro k; simp [nmw_rec, set_G])
  have hkeys : (adj_index G u).1.entries.map Sigma.fst = (nbrs G u).keys := by
    rw [adj_index_fst]; rfl
  rw [hkeys, List.nil_append] at hk
  obtain ⟨hs, hm⟩ := hk
  have aux : ∀ (norm : norm_t) (a : node_t) (k : node_t × node_t),
      (((nmw_rec (redundancy (⟨G, ∅, ∅, lc⟩ : State K) u v weight).2 norm).lookup k).isSome
          = true ↔ (k.1 = a ∧ k.2 ∈ (nbrs G u).keys)) →
      (nmw_rec (redundancy (⟨G, ∅, ∅, lc⟩ : State K) u v weight).2 norm).lookup k
        = if k.1 = a ∧ k.2 ∈ (nbrs G u).keys
          then some (normalizedMutualWeight G k.1 k.2 weight norm) else none := by
    intro norm a k hiff
    cases hl : (nmw_rec (redundancy (⟨G, ∅, ∅, lc⟩ : State K) u v weight).2 norm).lookup k with
    | none =>
      rw [hl] at hiff
      rw [if_neg]
      intro hc
      have := hiff.2 hc
      cases this
    | some x =>
      rw [hl] at hiff
      rw [if_pos (hiff.1 rfl), hE.nmw_ok norm k x hl, val_nmw_empty]
  exact ⟨fun k => aux norm_t.sum u k (hs k), fun k => aux norm_t.max v k (hm k)⟩

/-! ## hierarchy -/

theorem foldl_state_ext {α β : Type} {weight : String} {st0 : State K}
    (f : β × State K → α → β × State K)
    (hf : ∀ acc a, Ext weight st0 acc.2 → Ext weight st0 (f acc a).2)
    (l : List α) (acc : β × State K) (h : Ext weight st0 acc.2) :
    Ext weight st0 (l.foldl f acc).2 := by
  induction l generalizing acc with
  | nil => exact h
  | cons a l ih => exact ih (f acc a) (hf acc a h)

theorem hierarchy_body_ext {weight : String} {st0 : State K} (log : K → K)
    (acc : Map node_t (PyFloat K) × State K) (v : node_t) (h : Ext weight st0 acc.2) :
    Ext weight st0 (hierarchy_body log weight acc v).2 := by
  unfold hierarchy_body
  refine foldl_state_ext _ ?_ _ _ h
  intro r w hr
  exact (lc_ext (lc_ext hr v w).2 v w).2

theorem ego_len_few (G : Graph K) (v : node_t) (h : map_size (nbrs G v) ≤ 1) :
    (py_len (ego_subgraph G v) : Int) - 1 ≤ 1 := by
  have h1 : py_len (ego_subgraph G v) = ((v :: neighbors G v).dedup).length := rfl
  have h2 : ((v :: neighbors G v).dedup).length ≤ (v :: neighbors G v).length :=
    (List.dedup_sublist _).length_le
  have h3 : (neighbors G v).length = map_size (nbrs G v) := by
    unfold neighbors map_size AList.keys List.keys
    simp
  rw [h1]
  simp only [List.length_cons] at h2
  omega

theorem hierarchy_body_few (log : K → K) (weight : String)
    (acc : Map node_t (PyFloat K) × State K) (v : node_t)
    (h : map_size (nbrs acc.2.G v) ≤ 1) :
    (hierarchy_body log weight acc v).1
      = if !(map_count acc.1 v) then acc.1.insert v (PyFloat.num 0) else acc.1 := by
  have hn : ¬ ((py_len (ego_subgraph acc.2.G v) : Int) - 1 > 1) :=
    not_lt.2 (ego_len_few acc.2.G v h)
  unfold hierarchy_body
  simp only [hn, if_false]

theorem hierarchy_body_other (log : K → K) (weight : String)
    (acc : Map node_t (PyFloat K) × State K) (v x : node_t) (hx : x ≠ v) :
    (hierarchy_body log weight acc v).1.lookup x = acc.1.lookup x := by
  unfold hierarchy_body
  simp only []
  split_ifs <;> simp [AList.lookup_insert_ne hx]

/-- Along the loop of `hierarchy` a node with at most one neighbour is absent from
the result or mapped to 0, and it is mapped to 0 once it has been visited. -/
theorem hierarchy_loop_few (weight : String) (st0 : State K) (log : K → K) (v : node_t)
    (hfew : map_size (nbrs st0.G v) ≤ 1) (l : List node_t)
    (acc : Map node_t (PyFloat K) × State K) (h : Ext weight st0 acc.2)
    (hI : acc.1.lookup v = none ∨ acc.1.lookup v = some (PyFloat.num 0)) :
    ((l.foldl (hierarchy_body log weight) acc).1.lookup v = none
        ∨ (l.foldl (hierarchy_body log weight) acc).1.lookup v = some (PyFloat.num 0))
      ∧ ((v ∈ l ∨ acc.1.lookup v = some (PyFloat.num 0)) →
        (l.foldl (hierarchy_body log weight) acc).1.lookup v = some (PyFloat.num 0)) := by
  induction l generalizing acc with
  | nil =>
    refine ⟨hI, ?_⟩
    rintro (hv | hv)
    · cases hv
    · exact hv
  | cons x l ih =>
    simp only [List.foldl_cons]
    have hE := hierarchy_body_ext log acc x h
    by_cases hx : x = v
    · subst hx
      have hfew2 : map_size (nbrs acc.2.G x) ≤ 1 := by rw [h.nbrs_eq]; exact hfew
      have hJ : (hierarchy_body log weight acc x).1.lookup x = some (PyFloat.num 0) := by
        rw [hierarchy_body_few log weight acc x hfew2]
        rcases hI with hI | hI
        · simp [map_count, hI, AList.lookup_insert]
        · simp [map_count, hI]
      have step := ih (hierarchy_body log weight acc x) hE (Or.inr hJ)
      exact ⟨step.1, fun _ => step.2 (Or.inr hJ)⟩
    · have hsame := hierarchy_body_other log weight acc x v (Ne.symm hx)
      have step := ih (hierarchy_body log weight acc x) hE (by rw [hsame]; exact hI)
      refine ⟨step.1, ?_⟩
      rintro (hv | hv)
      · rcases List.mem_cons.1 hv with hv | hv
        · exact absurd hv.symm hx
        · exact step.2 (Or.inl hv)
      · exact step.2 (Or.inr (by rw [hsame]; exact hv))

/-! ## Bounds on the sum-normalized mutual weight -/

theorem nmw_empty_tables (G : Graph K) (u v : node_t) (weight : String) (norm : norm_t) :
    (normalized_mutual_weight (⟨G, ∅, ∅, ∅⟩ : State K) u v weight norm).1
      = normalizedMutualWeight G u v weight norm := by
  rw [(nmw_ext (Ext.refl weight (⟨G, ∅, ∅, ∅⟩ : State K)) u v norm).1, val_nmw_empty]

/-! ## mutual_weight, normalized_mutual_weight, local_constraint, constraint -/

/-- C4: for every graph, weight key and node ids `u`, `v`, keys of the adjacency map
or not, `mutual_weight` returns `e(u,v) + e(v,u)`, where `e` is 0 without an edge,
the attribute when the edge carries it and 1 when the edge lacks it. -/
theorem mutual_weight_is_sum_of_directions (G : Graph K) (u v : node_t) (weight : String) :
    (mutual_weight G u v weight).1 = edgeWeight G u v weight + edgeWeight G v u weight := by
  rw [mutual_weight_eq]
  rfl

/-- With the edges 1 -> 2 and 2 -> 1 both carrying `w = 3`, the mutual weight of 1
and 2 under the key "w" is 6. -/
theorem mutual_weight_two_node : (mutual_weight two_node 1 2 "w").1 = 6 :=
  (mutual_weight_is_sum_of_directions two_node 1 2 "w").trans (by
    norm_num [edgeWeight, nbrs, two_node, w_attr, AList.keys, AList.lookup, List.keys])

/-- C3: when `(u,v)` is not a key of `sum_nmw_rec`, the sum-normalized call returns
`mutual_weight(u,v) / scale` with `scale` the sum of `mutual_weight(u,w)` over the
neighbours `w` of `u`; it returns 0 when the scale is 0, in particular when `u` has
no neighbour; the returned value is stored under `(u,v)` in `sum_nmw_rec`. -/
theorem normalized_mutual_weight_sum_fresh (st : State K) (u v : node_t) (weight : String)
    (h : st.sum_nmw_rec.lookup (u, v) = none) :
    (normalized_mutual_weight st u v weight norm_t.sum).1
        = (if ((nbrs st.G u).keys.map (fun w => (mutual_weight st.G u w weight).1)).sum = 0
            then 0
          else (mutual_weight st.G u v weight).1
            / ((nbrs st.G u).keys.map (fun w => (mutual_weight st.G u w weight).1)).sum)
      ∧ (((nbrs st.G u).keys.map (fun w => (mutual_weight st.G u w weight).1)).sum = 0 →
          (normalized_mutual_weight st u v weight norm_t.sum).1 = 0)
      ∧ ((nbrs st.G u).keys = [] →
          (normalized_mutual_weight st u v weight norm_t.sum).1 = 0)
      ∧ (normalized_mutual_weight st u v weight norm_t.sum).2.sum_nmw_rec.lookup (u, v)
          = some (normalized_mutual_weight st u v weight norm_t.sum).1 := by
  have hf := nmw_fresh st u v weight norm_t.sum h
  have hval : (normalized_mutual_weight st u v weight norm_t.sum).1
      = (if ((nbrs st.G u).keys.map (fun w => (mutual_weight st.G u w weight).1)).sum = 0
            then 0
          else (mutual_weight st.G u v weight).1
            / ((nbrs st.G u).keys.map (fun w => (mutual_weight st.G u w weight).1)).sum) := by
    rw [hf]
    simp only [mutual_weight_eq]
    rfl
  refine ⟨hval, ?_, ?_, ?_⟩
  · intro h0
    rw [hval, if_pos h0]
  · intro h0
    rw [hval, h0]
    simp
  · rw [hf]
    simp [nmw_rec_store, set_G, AList.lookup_insert]

/-- In the two-node graph with `w = 3` in both directions the sum-normalized mutual
weight of (1, 2) is `6 / 6 = 1`. -/
theorem normalized_mutual_weight_two_node :
    (fresh two_node).sum_nmw_rec.lookup (1, 2) = none
      ∧ (normalized_mutual_weight (fresh two_node) 1 2 "w" norm_t.sum).1 = 1 :=
  ⟨rfl, (normalized_mutual_weight_sum_fresh (fresh two_node) 1 2 "w" rfl).1.trans (by
    norm_num [mutual_weight_eq, mutualWeight, edgeWeight, nbrs, fresh, two_node, w_attr,
      AList.keys, AList.lookup, List.keys])⟩

/-- C2: when `(u,v)` is not a key of `local_constraint_rec`, `local_constraint`
returns `(direct + indirect)^2`, where `direct` is the answer of
`normalized_mutual_weight(u,v,sum)` and `indirect` the sum over the neighbours `w` of
`u` of the answers of `normalized_mutual_weight(u,w,sum)` and
`normalized_mutual_weight(w,v,sum)` multiplied, and afterwards the table maps `(u,v)`
to the returned value; when `(u,v)` is a key, the stored value is returned and the
state is unchanged.  The answers are those at the state of the call; the memo tables
never change an answer later on. -/
theorem local_constraint_spec (st : State K) (u v : node_t) (weight : String) :
    (st.local_constraint_rec.lookup (u, v) = none →
      (local_constraint st u v weight).1
          = ((normalized_mutual_weight st u v weight norm_t.sum).1
              + ((nbrs st.G u).keys.map (fun w =>
                  (normalized_mutual_weight st u w weight norm_t.sum).1
                    * (normalized_mutual_weight st w v weight norm_t.sum).1)).sum) ^ 2
        ∧ (local_constraint st u v weight).2.local_constraint_rec.lookup (u, v)
            = some (local_constraint st u v weight).1)
      ∧ (∀ x, st.local_constraint_rec.lookup (u, v) = some x →
          local_constraint st u v weight = (x, st)) := by
  constructor
  · intro hl
    have hnmw : ∀ a b, (normalized_mutual_weight st a b weight norm_t.sum).1
        = val_nmw st a b weight norm_t.sum :=
      fun a b => (nmw_ext (Ext.refl weight st) a b norm_t.sum).1
    constructor
    · rw [(lc_ext (Ext.refl weight st) u v).1]
      simp only [hnmw]
      unfold val_lc
      rw [hl]
    · rw [local_constraint_none st u v weight hl]
      simp [AList.lookup_insert]
  · intro x hx
    unfold local_constraint
    simp only [hx]

/-- In the star, `local_constraint(1, 0)` computed from empty tables is 1 and is
stored under (1, 0). -/
theorem local_constraint_star :
    (fresh star_graph).local_constraint_rec.lookup (1, 0) = none
      ∧ (local_constraint (fresh star_graph) 1 0 "None").1 = 1 :=
  ⟨rfl, (((local_constraint_spec (fresh star_graph) 1 0 "None").1 rfl).1).trans (by
    have e : ∀ a b, (normalized_mutual_weight (fresh star_graph) a b "None" norm_t.sum).1
        = normalizedMutualWeight star_graph a b "None" norm_t.sum := fun a b =>
      ((nmw_ext (Ext.refl "None" (fresh star_graph)) a b norm_t.sum).1).trans
        (val_nmw_empty star_graph ∅ a b "None" norm_t.sum)
    simp only [e]
    norm_num [normalizedMutualWeight, scaleOf, mutualWeight, edgeWeight, nbrs, fresh,
      star_graph, AList.keys, AList.lookup, List.keys, plain])⟩

/-- C1: for every graph, initial content of the tables, weight key and list of
requested nodes, and every requested node `v` with a non-empty adjacency, the value
`constraint` returns for `v` is the un-memoized sum over `w` in `adj[v]` of
`(p(v,w) + sum over x in adj[v] of p(v,x) * p(x,w))^2`, with `p(a,b)` the mutual
weight of `a` and `b` divided by the sum of the mutual weights of `a` towards its
neighbours, 0 when that sum is 0.  The right-hand side does not mention the batch. -/
theorem constraint_eq_reference (st : State K) (nodes : Option (List node_t))
    (weight : Option String) (n_workers : Option Nat) (v : node_t)
    (hv : v ∈ requested st.G nodes) (hne : map_size (nbrs st.G v) ≠ 0) :
    (constraint st nodes weight n_workers).1.lookup v
      = some (PyFloat.num (constraintOf st.G v (weight_to_string weight))) := by
  rw [constraint_lookup st nodes weight n_workers v hv]
  unfold val_constraint constraintOf
  simp only [val_lc_empty]
  rw [if_neg hne]

/-- In the unweighted star with centre 0 and leaves 1, 2, 3 the constraint of leaf 1
is 1, the local constraint of (1, 0), whatever the batch. -/
theorem constraint_star :
    (constraint (fresh star_graph) none none none).1.lookup 1 = some (PyFloat.num 1)
      ∧ (constraint (fresh star_graph) (some [3, 1, 0, 1]) none none).1.lookup 1
          = some (PyFloat.num 1)
      ∧ localConstraint star_graph 1 0 "None" = 1 :=
  have e : constraintOf star_graph 1 "None" = 1 := by
    norm_num [constraintOf, localConstraint, normalizedMutualWeight, scaleOf, mutualWeight,
      edgeWeight, nbrs, star_graph, AList.keys, AList.lookup, List.keys, plain]
  have e2 : localConstraint star_graph 1 0 "None" = 1 := by
    norm_num [localConstraint, normalizedMutualWeight, scaleOf, mutualWeight,
      edgeWeight, nbrs, star_graph, AList.keys, AList.lookup, List.keys, plain]
  ⟨(constraint_eq_reference (fresh star_graph) none none none 1
      (by simp [requested, fresh, star_graph])
      (by simp [map_size, nbrs, fresh, star_graph, AList.lookup])).trans
      (by rw [show weight_to_string none = "None" from rfl]; exact congrArg _ (congrArg _ e)),
    (constraint_eq_reference (fresh star_graph) (some [3, 1, 0, 1]) none none 1
      (by simp [requested])
      (by simp [map_size, nbrs, fresh, star_graph, AList.lookup])).trans
      (by rw [show weight_to_string none = "None" from rfl]; exact congrArg _ (congrArg _ e)),
    e2⟩


/-! ## redundancy, effective_size and the undefined value -/

/-- C6: for every graph, weight key and node ids `u`, `v`, `redundancy(u,v)` from
empty normalized-mutual-weight tables is 1 minus the sum over the neighbours `w` of
`u` of the sum-normalized weight of `(u,w)` times the max-normalized weight of
`(v,w)`; afterwards `sum_nmw_rec` holds exactly the pairs `(u,w)` with their
sum-normalized values and `max_nmw_rec` exactly the pairs `(v,w)` with their
max-normalized values. -/
theorem redundancy_asymmetric_normalization (G : Graph K) (lc : rec_t K) (u v : node_t)
    (weight : String) :
    (redundancy (⟨G, ∅, ∅, lc⟩ : State K) u v weight).1
        = 1 - ((nbrs G u).keys.map (fun w =>
            normalizedMutualWeight G u w weight norm_t.sum
              * normalizedMutualWeight G v w weight norm_t.max)).sum
    ∧ (∀ k : node_t × node_t,
      (redundancy (⟨G, ∅, ∅, lc⟩ : State K) u v weight).2.sum_nmw_rec.lookup k
        = if k.1 = u ∧ k.2 ∈ (nbrs G u).keys
          then some (normalizedMutualWeight G k.1 k.2 weight norm_t.sum) else none)
    ∧ (∀ k : node_t × node_t,
      (redundancy (⟨G, ∅, ∅, lc⟩ : State K) u v weight).2.max_nmw_rec.lookup k
        = if k.1 = v ∧ k.2 ∈ (nbrs G u).keys
          then some (normalizedMutualWeight G k.1 k.2 weight norm_t.max) else none) := by
  refine ⟨?_, redundancy_tables G lc u v weight⟩
  rw [(redundancy_ext (Ext.refl weight (⟨G, ∅, ∅, lc⟩ : State K)) u v).1, val_red_empty]
  rfl

/-- C5: in the weighted-or-directed branch of `effective_size` (graph directed, or a
weight key given) the value of a requested node `v` with a neighbour is the sum over
`u` in `adj[v]` of `1 - sum over w in adj[v] of p_sum(v,w) * p_max(u,w)`, the
un-memoized redundancy of `(v,u)`. -/
theorem effective_size_general_branch (st : State K) (nodes : Option (List node_t))
    (weight : Option String) (n_workers : Option Nat) (v : node_t)
    (hbranch : st.G.directed = true ∨ weight.isSome = true)
    (hv : v ∈ requested st.G nodes) (hne : map_size (nbrs st.G v) ≠ 0) :
    (effective_size st nodes weight n_workers).1.lookup v
      = some (PyFloat.num (((nbrs st.G v).keys.map (fun u =>
          1 - ((nbrs st.G v).keys.map (fun w =>
            normalizedMutualWeight st.G v w (weight_to_string weight) norm_t.sum
              * normalizedMutualWeight st.G u w (weight_to_string weight) norm_t.max)).sum)).sum)) := by
  rw [effective_size_lookup st nodes weight n_workers v hv]
  have hb : ¬ ((!is_directed st.G) && weight.isNone) = true := by
    unfold is_directed
    rcases hbranch with h | h
    · simp [h]
    · cases weight with
      | none => cases h
      | some x => simp
  rw [if_neg hb]
  unfold val_es_general
  rw [if_neg hne]
  simp only [val_red_empty]
  rfl

/-- In the two-node graph with `w = 3` in both directions and the key "w", the
effective size of node 1 is the redundancy of (1, 2), which is 1. -/
theorem effective_size_two_node :
    (effective_size (fresh two_node) none (some "w") none).1.lookup 1
      = some (PyFloat.num 1) :=
  (effective_size_general_branch (fresh two_node) none (some "w") none 1 (Or.inr rfl)
    (by simp [requested, fresh, two_node]) (by decide)).trans (by
    norm_num [weight_to_string, normalizedMutualWeight, scaleOf, mutualWeight, edgeWeight,
      nbrs, fresh, two_node, w_attr, AList.keys, AList.lookup, List.keys])

/-- C8: for every graph, weight key, logarithm and requested node `v` with at most
one neighbour, the count `n` is at most 1 and `hierarchy` returns 0 for `v`,
whatever the function `log` is. -/
theorem hierarchy_zero_of_few_neighbors (log : K → K) (st : State K)
    (nodes : Option (List node_t)) (weight : Option String) (n_workers : Option Nat)
    (v : node_t) (hv : v ∈ requested st.G nodes) (hfew : map_size (nbrs st.G v) ≤ 1) :
    (py_len (ego_subgraph st.G v) : Int) - 1 ≤ 1
      ∧ (hierarchy log st nodes weight n_workers).1.lookup v = some (PyFloat.num 0) := by
  refine ⟨ego_len_few st.G v hfew, ?_⟩
  unfold hierarchy
  exact (hierarchy_loop_few (weight_to_string weight) (⟨st.G, ∅, ∅, ∅⟩ : State K) log v
    hfew (requested st.G nodes)
    (∅, ⟨st.G, ∅, ∅, ∅⟩) (Ext.refl _ _) (Or.inl rfl)).2 (Or.inl hv)

/-- The isolated node 5 has hierarchy 0. -/
theorem hierarchy_isolated :
    (hierarchy (fun _ : ℚ => 0) (fresh isolated) (some [5]) none none).1.lookup 5
      = some (PyFloat.num 0) :=
  (hierarchy_zero_of_few_neighbors (fun _ : ℚ => 0) (fresh isolated) (some [5]) none none 5
    (by simp [requested]) (by decide)).2

/-- C14: for every graph, directed or not, with arbitrary edge attributes, every
weight key and all node ids `u`, `v`, `mutual_weight(u,v)` equals
`mutual_weight(v,u)`. -/
theorem mutual_weight_symmetric (G : Graph K) (u v : node_t) (weight : String) :
    (mutual_weight G u v weight).1 = (mutual_weight G v u weight).1 := by
  rw [mutual_weight_eq, mutual_weight_eq]
  exact add_comm _ _

/-- C16: a call of `mutual_weight` returns the graph it received, for all ids and
weight keys: no node, edge or attribute entry is inserted by the guarded
subscripts; the memo tables are not arguments of the call, so a state keeps its
three tables and its graph. -/
theorem mutual_weight_pure (G : Graph K) (u v : node_t) (weight : String) :
    (mutual_weight G u v weight).2 = G
      ∧ (mutual_weight G u v weight).2.adj.entries = G.adj.entries
      ∧ ∀ st : State K, set_G st (mutual_weight st.G u v weight).2 = st := by
  refine ⟨?_, ?_, ?_⟩
  · rw [mutual_weight_eq]
  · rw [mutual_weight_eq]
  · intro st
    rw [mutual_weight_eq]
    rfl

/-! ## The max-normalized scale -/

theorem foldl_max_init {α : Type} (f : α → K) (l : List α) (x y : K) :
    l.foldl (fun s w => max s (f w)) (max x y) = max x (l.foldl (fun s w => max s (f w)) y) := by
  induction l generalizing y with
  | nil => rfl
  | cons a l ih =>
    simp only [List.foldl_cons]
    rw [max_assoc]
    exact ih _

theorem scaleOf_max_eq (G : Graph K) (u : node_t) (weight : String)
    (h : (nbrs G u).keys ≠ []) :
    scaleOf G u weight norm_t.max = max 0 (neighborMax G u weight) := by
  unfold scaleOf neighborMax
  cases hk : (nbrs G u).keys with
  | nil => exact absurd hk h
  | cons a t =>
    simp only [List.foldl_cons]
    exact foldl_max_init _ t 0 _

/-- C11 fails for negative weights: with `w = -2` in both directions node 1 has the
neighbour 2, the maximum of its mutual weights is -4 and `mutual_weight(1,2)`
divided by that maximum is 1, but the max-normalized call from empty tables
returns 0. -/
theorem nmw_max_negative_pair :
    (nbrs negative_pair 1).keys ≠ []
      ∧ (fresh negative_pair).max_nmw_rec.lookup (1, 2) = none
      ∧ neighborMax negative_pair 1 "w" = -4
      ∧ (mutual_weight negative_pair 1 2 "w").1 / neighborMax negative_pair 1 "w" = 1
      ∧ (normalized_mutual_weight (fresh negative_pair) 1 2 "w" norm_t.max).1 = 0
      ∧ (normalized_mutual_weight (fresh negative_pair) 1 2 "w" norm_t.max).1
          ≠ (mutual_weight negative_pair 1 2 "w").1 / neighborMax negative_pair 1 "w" := by
  have e1 : neighborMax negative_pair 1 "w" = -4 := by
    norm_num [neighborMax, mutualWeight, edgeWeight, nbrs, negative_pair, w_attr, AList.keys,
      AList.lookup, List.keys]
  have e2 : (mutual_weight negative_pair 1 2 "w").1 = -4 := by
    rw [mutual_weight_eq]
    norm_num [mutualWeight, edgeWeight, nbrs, negative_pair, w_attr, AList.keys,
      AList.lookup, List.keys]
  have e3 : (normalized_mutual_weight (fresh negative_pair) 1 2 "w" norm_t.max).1 = 0 := by
    rw [show fresh negative_pair = (⟨negative_pair, ∅, ∅, ∅⟩ : State ℚ) from rfl,
      nmw_empty_tables]
    norm_num [normalizedMutualWeight, scaleOf, mutualWeight, edgeWeight, nbrs, negative_pair,
      w_attr, AList.keys, AList.lookup, List.keys]
  refine ⟨?_, rfl, e1, ?_, e3, ?_⟩
  · simp [nbrs, negative_pair, AList.keys, AList.lookup, List.keys]
  · rw [e1, e2]; norm_num
  · rw [e1, e2, e3]; norm_num

/-- C11, amended: when `u` has a neighbour and `(u,v)` is not a key of
`max_nmw_rec`, the scale of the max-normalized call is the larger of 0 and the
maximum of `mutual_weight(u,w)` over the neighbours `w` of `u`, and the call returns
`mutual_weight(u,v)` divided by that scale, 0 when the scale is 0. -/
theorem normalized_mutual_weight_max_fresh (st : State K) (u v : node_t) (weight : String)
    (hn : (nbrs st.G u).keys ≠ []) (h : st.max_nmw_rec.lookup (u, v) = none) :
    (normalized_mutual_weight st u v weight norm_t.max).1
      = (if max 0 (neighborMax st.G u weight) = 0 then 0
          else (mutual_weight st.G u v weight).1 / max 0 (neighborMax st.G u weight)) := by
  rw [nmw_fresh st u v weight norm_t.max h, mutual_weight_eq]
  show normalizedMutualWeight st.G u v weight norm_t.max = _
  unfold normalizedMutualWeight
  rw [scaleOf_max_eq st.G u weight hn]

/-- In the two-node graph with `w = 3` in both directions the maximum is 6 and the
max-normalized mutual weight of (1, 2) is 1. -/
theorem normalized_mutual_weight_max_two_node :
    (normalized_mutual_weight (fresh two_node) 1 2 "w" norm_t.max).1 = 1 :=
  (normalized_mutual_weight_max_fresh (fresh two_node) 1 2 "w"
    (by simp [nbrs, fresh, two_node, AList.keys, AList.lookup, List.keys]) rfl).trans (by
    norm_num [mutual_weight_eq, neighborMax, mutualWeight, edgeWeight, nbrs, fresh, two_node,
      w_attr, AList.keys, AList.lookup, List.keys])

/-! ## Any sequence of calls keeps the tables valid -/

theorem step_ext {weight : String} {st0 st : State K} (h : Ext weight st0 st) (c : Call) :
    Ext weight st0 (step weight st c) := by
  cases c with
  | nmw u v norm => exact (nmw_ext h u v norm).2
  | lc u v => exact (lc_ext h u v).2
  | red u v => exact (redundancy_ext h u v).2
  | cc v => exact (compute_constraint_of_v_ext h v).2

theorem run_ext {weight : String} {st0 st : State K} (h : Ext weight st0 st)
    (calls : List Call) : Ext weight st0 (run weight st calls) := by
  unfold run
  induction calls generalizing st with
  | nil => exact h
  | cons c l ih => exact ih (step_ext h c)

/-- C19: start with all three tables empty and make any finite sequence of calls
of `normalized_mutual_weight`, `local_constraint`, `redundancy` and
`compute_constraint_of_v` with one graph and weight key.  Then every entry of
`sum_nmw_rec` is the un-memoized sum-normalized mutual weight of its pair, every
entry of `max_nmw_rec` the un-memoized max-normalized one, and every entry of
`local_constraint_rec` the un-memoized `(direct + indirect)^2` of its pair. -/
theorem tables_valid (G : Graph K) (weight : String) (calls : List Call)
    (k : node_t × node_t) (x : K) :
    ((run weight (⟨G, ∅, ∅, ∅⟩ : State K) calls).sum_nmw_rec.lookup k = some x →
        x = normalizedMutualWeight G k.1 k.2 weight norm_t.sum)
      ∧ ((run weight (⟨G, ∅, ∅, ∅⟩ : State K) calls).max_nmw_rec.lookup k = some x →
        x = normalizedMutualWeight G k.1 k.2 weight norm_t.max)
      ∧ ((run weight (⟨G, ∅, ∅, ∅⟩ : State K) calls).local_constraint_rec.lookup k = some x →
        x = (normalizedMutualWeight G k.1 k.2 weight norm_t.sum
              + ((nbrs G k.1).keys.map (fun w =>
                  normalizedMutualWeight G k.1 w weight norm_t.sum
                    * normalizedMutualWeight G w k.2 weight norm_t.sum)).sum) ^ 2) := by
  have hE := run_ext (Ext.refl weight (⟨G, ∅, ∅, ∅⟩ : State K)) calls
  refine ⟨?_, ?_, ?_⟩
  · intro h
    rw [hE.nmw_ok norm_t.sum k x h, val_nmw_empty]
  · intro h
    rw [hE.nmw_ok norm_t.max k x h, val_nmw_empty]
  · intro h
    rw [hE.lc_ok k x h, val_lc_empty]
    rfl

/-- In the star, after the calls for (0, 1) and (1, 0), `sum_nmw_rec` holds the two
ordered pairs as separate entries, with the values 1/3 and 1. -/
theorem tables_valid_star :
    (run "None" (fresh star_graph)
        [Call.nmw 0 1 norm_t.sum, Call.nmw 1 0 norm_t.sum]).sum_nmw_rec.lookup (0, 1)
          = some (1 / 3)
      ∧ (run "None" (fresh star_graph)
        [Call.nmw 0 1 norm_t.sum, Call.nmw 1 0 norm_t.sum]).sum_nmw_rec.lookup (1, 0)
          = some 1 := by
  have key : ∀ k : node_t × node_t, k = (0, 1) ∨ k = (1, 0) →
      ((run "None" (fresh star_graph)
        [Call.nmw 0 1 norm_t.sum, Call.nmw 1 0 norm_t.sum]).sum_nmw_rec.lookup k).isSome
          = true := by
    intro k hk
    show ((nmw_rec (normalized_mutual_weight
      (normalized_mutual_weight (fresh star_graph) 0 1 "None" norm_t.sum).2
        1 0 "None" norm_t.sum).2 norm_t.sum).lookup k).isSome = true
    rw [nmw_same_table, nmw_same_table]
    rcases hk with hk | hk
    · exact Or.inr (Or.inl hk)
    · exact Or.inl hk
  constructor
  · cases hx : (run "None" (fresh star_graph)
        [Call.nmw 0 1 norm_t.sum, Call.nmw 1 0 norm_t.sum]).sum_nmw_rec.lookup (0, 1) with
    | none =>
      have := key (0, 1) (Or.inl rfl)
      rw [hx] at this
      cases this
    | some x =>
      rw [(tables_valid star_graph "None"
        [Call.nmw 0 1 norm_t.sum, Call.nmw 1 0 norm_t.sum] (0, 1) x).1 hx]
      norm_num [normalizedMutualWeight, scaleOf, mutualWeight, edgeWeight, nbrs, star_graph,
        AList.keys, AList.lookup, List.keys, plain]
  · cases hx : (run "None" (fresh star_graph)
        [Call.nmw 0 1 norm_t.sum, Call.nmw 1 0 norm_t.sum]).sum_nmw_rec.lookup (1, 0) with
    | none =>
      have := key (1, 0) (Or.inr rfl)
      rw [hx] at this
      cases this
    | some x =>
      rw [(tables_valid star_graph "None"
        [Call.nmw 0 1 norm_t.sum, Call.nmw 1 0 norm_t.sum] (1, 0) x).1 hx]
      norm_num [normalizedMutualWeight, scaleOf, mutualWeight, edgeWeight, nbrs, star_graph,
        AList.keys, AList.lookup, List.keys, plain]

/-! ## Sum-normalized weights add up to 1 -/

theorem sum_map_div {α : Type} (f : α → K) (c : K) (l : List α) :
    (l.map (fun w => f w / c)).sum = (l.map f).sum / c := by
  induction l with
  | nil => simp
  | cons a l ih => simp only [List.map_cons, List.sum_cons, ih, add_div]

/-- In exact arithmetic the sum-normalized weights of a node add up to 1: when the
sum over `w` in `adj[u]` of `mutual_weight(u,w)` is not 0, the sum-normalized mutual
weights of `u` towards its neighbours add up to 1, whether each is evaluated from
empty tables or the calls run one after the other from empty tables.  The rounding
of the quotients in `weight_t` is outside this model. -/
theorem nmw_sum_adds_to_one (G : Graph K) (u : node_t) (weight : String)
    (h : ((nbrs G u).keys.map (fun w => (mutual_weight G u w weight).1)).sum ≠ 0) :
    ((nbrs G u).keys.map (fun w =>
        (normalized_mutual_weight (⟨G, ∅, ∅, ∅⟩ : State K) u w weight norm_t.sum).1)).sum = 1
      ∧ ((nbrs G u).keys.foldl (fun (acc : K × State K) w =>
          (acc.1 + (normalized_mutual_weight acc.2 u w weight norm_t.sum).1,
            (normalized_mutual_weight acc.2 u w weight norm_t.sum).2))
          (0, (⟨G, ∅, ∅, ∅⟩ : State K))).1 = 1 := by
  simp only [mutual_weight_eq] at h
  have hs : scaleOf G u weight norm_t.sum ≠ 0 := h
  have hone : ((nbrs G u).keys.map (fun w =>
      normalizedMutualWeight G u w weight norm_t.sum)).sum = 1 := by
    unfold normalizedMutualWeight
    simp only [if_neg hs]
    rw [sum_map_div]
    exact div_self hs
  constructor
  · simp only [nmw_empty_tables]
    exact hone
  · have key := foldl_ext
      (fun w : node_t => val_nmw (⟨G, ∅, ∅, ∅⟩ : State K) u w weight norm_t.sum)
      (fun (acc : K × State K) w =>
          (acc.1 + (normalized_mutual_weight acc.2 u w weight norm_t.sum).1,
            (normalized_mutual_weight acc.2 u w weight norm_t.sum).2))
      (fun acc w hacc => by
        obtain ⟨x1, x2⟩ := nmw_ext hacc u w norm_t.sum
        exact ⟨by simp only [x1], x2⟩)
      (nbrs G u).keys (0, (⟨G, ∅, ∅, ∅⟩ : State K)) (Ext.refl weight _)
    rw [key.1, zero_add]
    simp only [val_nmw_empty]
    exact hone

/-- In the star the three sum-normalized weights of the centre, 1/3 each, add up
to 1. -/
theorem nmw_sum_adds_to_one_star :
    ((nbrs star_graph 0).keys.map (fun w =>
        (normalized_mutual_weight (⟨star_graph, ∅, ∅, ∅⟩ : State ℚ) 0 w "None"
          norm_t.sum).1)).sum = 1 :=
  (nmw_sum_adds_to_one star_graph 0 "None" (by
    norm_num [mutual_weight_eq, mutualWeight, edgeWeight, nbrs, star_graph, AList.keys,
      AList.lookup, List.keys, plain])).1

/-! ## Stale tables and repeated calls -/

theorem localConstraint_congr {G H : Graph K} (h : ∀ u, nbrs G u = nbrs H u) (u v : node_t)
    (weight : String) : localConstraint G u v weight = localConstraint H u v weight := by
  unfold localConstraint
  simp only [h, normalizedMutualWeight_congr h]

theorem redundancyOf_congr {G H : Graph K} (h : ∀ u, nbrs G u = nbrs H u) (u v : node_t)
    (weight : String) : redundancyOf G u v weight = redundancyOf H u v weight := by
  unfold redundancyOf
  simp only [h, normalizedMutualWeight_congr h]

theorem val_constraint_congr {G H : Graph K} (h : ∀ u, nbrs G u = nbrs H u) (v : node_t)
    (weight : String) :
    val_constraint (⟨G, ∅, ∅, ∅⟩ : State K) v weight
      = val_constraint (⟨H, ∅, ∅, ∅⟩ : State K) v weight := by
  unfold val_constraint
  simp only [val_lc_empty, h, localConstraint_congr h]

/-- The whole dictionary `constraint` returns, and the state it leaves. -/
theorem constraint_dict (st : State K) (nodes : Option (List node_t))
    (weight : Option String) (n_workers : Option Nat) :
    (constraint st nodes weight n_workers).1
        = py_dict ((requested st.G nodes).map (fun v =>
            (v, val_constraint (⟨st.G, ∅, ∅, ∅⟩ : State K) v (weight_to_string weight))))
      ∧ Ext (weight_to_string weight) (⟨st.G, ∅, ∅, ∅⟩ : State K)
          (constraint st nodes weight n_workers).2 := by
  have key := foldl_collect (weight_to_string weight) (⟨st.G, ∅, ∅, ∅⟩ : State K)
    (fun v => val_constraint (⟨st.G, ∅, ∅, ∅⟩ : State K) v (weight_to_string weight))
    (fun (acc : List (node_t × PyFloat K) × State K) v =>
      (acc.1 ++ [((compute_constraint_of_v acc.2 v (weight_to_string weight)).1.1,
          (compute_constraint_of_v acc.2 v (weight_to_string weight)).1.2)],
        (compute_constraint_of_v acc.2 v (weight_to_string weight)).2))
    (fun acc v hacc => by
      obtain ⟨x1, x2⟩ := compute_constraint_of_v_ext hacc v
      exact ⟨by simp only [x1], x2⟩)
    (requested st.G nodes) ([], ⟨st.G, ∅, ∅, ∅⟩) (Ext.refl _ _)
  obtain ⟨k1, k2⟩ := key
  constructor
  · unfold constraint
    simp only []
    rw [k1, List.nil_append]
  · exact k2

/-- C13: calling `constraint` a second time with the same arguments, from the
tables and the graph the first call left behind, returns the same dictionary. -/
theorem constraint_idempotent (st : State K) (nodes : Option (List node_t))
    (weight : Option String) (n_workers : Option Nat) :
    (constraint (constraint st nodes weight n_workers).2 nodes weight n_workers).1
      = (constraint st nodes weight n_workers).1 := by
  obtain ⟨d1, e1⟩ := constraint_dict st nodes weight n_workers
  rw [(constraint_dict (constraint st nodes weight n_workers).2 nodes weight n_workers).1, d1]
  have hreq : requested (constraint st nodes weight n_workers).2.G nodes
      = requested st.G nodes := by
    unfold requested
    cases nodes with
    | none => exact e1.node_eq
    | some l => rfl
  rw [hreq]
  have hval : (fun v => (v, val_constraint
        (⟨(constraint st nodes weight n_workers).2.G, ∅, ∅, ∅⟩ : State K) v
          (weight_to_string weight)))
      = fun v => (v, val_constraint (⟨st.G, ∅, ∅, ∅⟩ : State K) v
          (weight_to_string weight)) := by
    funext v
    rw [val_constraint_congr e1.nbrs_eq]
  rw [hval]

theorem val_es_general_lc (G : Graph K) (lc : rec_t K) (v : node_t) (weight : String) :
    val_es_general (⟨G, ∅, ∅, lc⟩ : State K) v weight
      = val_es_general (⟨G, ∅, ∅, ∅⟩ : State K) v weight := by
  unfold val_es_general
  simp only [val_red_empty]

/-- The whole dictionary `effective_size` returns. -/
theorem effective_size_dict (st : State K) (nodes : Option (List node_t))
    (weight : Option String) (n_workers : Option Nat) :
    (effective_size st nodes weight n_workers).1
      = ((requested st.G nodes).map (fun v =>
          (v, if ((!is_directed st.G) && weight.isNone) = true then val_es_plain st.G v
            else val_es_general (⟨st.G, ∅, ∅, ∅⟩ : State K) v (weight_to_string weight)))).foldl
          (fun d p => d.insert p.1 p.2) ∅ := by
  unfold effective_size
  by_cases hb : ((!is_directed st.G) && weight.isNone) = true
  · simp only [hb, if_true]
    have e : (fun (es : Map node_t (PyFloat K)) v =>
        if map_size (py_getitem st.G v) = 0 then es.insert v PyFloat.nan
        else es.insert v (float_sub (py_len (remove_node (ego_subgraph st.G v) v) : K)
          (float_div (2 * (number_of_edges (remove_node (ego_subgraph st.G v) v) : K))
            (py_len (remove_node (ego_subgraph st.G v) v) : K))))
        = fun es v => es.insert v (val_es_plain st.G v) := by
      funext es x
      unfold val_es_plain
      split <;> rfl
    rw [e, foldl_insert_map]
  · simp only [hb, if_false]
    have key := foldl_store (weight_to_string weight)
      (⟨st.G, ∅, ∅, st.local_constraint_rec⟩ : State K)
      (fun v => val_es_general (⟨st.G, ∅, ∅, ∅⟩ : State K) v (weight_to_string weight))
      (fun (acc : Map node_t (PyFloat K) × State K) v =>
        if map_size (py_getitem acc.2.G v) = 0 then (acc.1.insert v PyFloat.nan, acc.2)
        else
          (acc.1.insert v (PyFloat.num
            ((adj_index acc.2.G v).1.entries.foldl (fun (r : K × State K) neighbor_info =>
              (r.1 + (redundancy r.2 v neighbor_info.1 (weight_to_string weight)).1,
                (redundancy r.2 v neighbor_info.1 (weight_to_string weight)).2))
              (0, set_G acc.2 (adj_index acc.2.G v).2)).1),
            ((adj_index acc.2.G v).1.entries.foldl (fun (r : K × State K) neighbor_info =>
              (r.1 + (redundancy r.2 v neighbor_info.1 (weight_to_string weight)).1,
                (redundancy r.2 v neighbor_info.1 (weight_to_string weight)).2))
              (0, set_G acc.2 (adj_index acc.2.G v).2)).2))
      (fun acc x hacc => by
        obtain ⟨s1, s2⟩ := effective_size_general_step hacc x
        have hn : py_getitem acc.2.G x = nbrs st.G x := hacc.nbrs_eq x
        beta_reduce
        rw [← val_es_general_lc st.G st.local_constraint_rec]
        unfold val_es_general
        simp only [hn]
        by_cases hz : map_size (nbrs st.G x) = 0
        · simp only [hz, if_true, true_and]
          exact hacc
        · simp only [hz, if_false]
          exact ⟨by rw [s1], s2⟩)
      (requested st.G nodes) (∅, ⟨st.G, ∅, ∅, st.local_constraint_rec⟩) (Ext.refl _ _)
    exact key.1

/-! ## The local-constraint table is left alone by effective_size -/

theorem foldl_state_prop {α β : Type} (P : State K → Prop)
    (f : β × State K → α → β × State K)
    (hf : ∀ acc a, P acc.2 → P (f acc a).2)
    (l : List α) (acc : β × State K) (h : P acc.2) : P (l.foldl f acc).2 := by
  induction l generalizing acc with
  | nil => exact h
  | cons a l ih => exact ih (f acc a) (hf acc a h)

theorem nmw_lc (st : State K) (u v : node_t) (weight : String) (norm : norm_t) :
    (normalized_mutual_weight st u v weight norm).2.local_constraint_rec
      = st.local_constraint_rec := by
  cases hl : (nmw_rec st norm).lookup (u, v) with
  | some x =>
    have e : normalized_mutual_weight st u v weight norm = (x, st) := by
      unfold normalized_mutual_weight
      simp only [hl]
    rw [e]
  | none =>
    rw [nmw_fresh st u v weight norm hl, nmw_rec_store_lc]
    rfl

theorem redundancy_lc (st : State K) (u v : node_t) (weight : String) :
    (redundancy st u v weight).2.local_constraint_rec = st.local_constraint_rec := by
  unfold redundancy
  refine foldl_state_prop (fun s => s.local_constraint_rec = st.local_constraint_rec) _ ?_ _ _ rfl
  intro acc w hacc
  show (normalized_mutual_weight _ v w.1 weight norm_t.max).2.local_constraint_rec = _
  rw [nmw_lc, nmw_lc]
  exact hacc

theorem effective_size_lc (st : State K) (nodes : Option (List node_t))
    (weight : Option String) (n_workers : Option Nat) :
    (effective_size st nodes weight n_workers).2.local_constraint_rec
      = st.local_constraint_rec := by
  unfold effective_size
  by_cases hb : ((!is_directed st.G) && weight.isNone) = true
  · simp only [hb, if_true]
  · simp only [hb, if_false]
    refine foldl_state_prop (fun s => s.local_constraint_rec = st.local_constraint_rec) _ ?_ _ _ rfl
    intro acc v hacc
    by_cases hz : map_size (py_getitem acc.2.G v) = 0
    · simp only [hz, if_true]
      exact hacc
    · simp only [hz, if_false]
      refine foldl_state_prop (fun s => s.local_constraint_rec = st.local_constraint_rec)
        _ ?_ _ _ hacc
      intro r n hr
      show (redundancy r.2 v n.1 (weight_to_string weight)).2.local_constraint_rec = _
      rw [redundancy_lc]
      exact hr

/-- C12: for each of `constraint`, `effective_size` and `hierarchy`, and for any two
initial contents of the three tables, the returned dictionary is the same;
`effective_size` returns `local_constraint_rec` as it received it. -/
theorem stale_tables_irrelevant (log : K → K) (G : Graph K) (nodes : Option (List node_t))
    (weight : Option String) (n_workers : Option Nat) (s1 m1 l1 s2 m2 l2 : rec_t K) :
    (constraint (⟨G, s1, m1, l1⟩ : State K) nodes weight n_workers).1
        = (constraint (⟨G, s2, m2, l2⟩ : State K) nodes weight n_workers).1
      ∧ (effective_size (⟨G, s1, m1, l1⟩ : State K) nodes weight n_workers).1
        = (effective_size (⟨G, s2, m2, l2⟩ : State K) nodes weight n_workers).1
      ∧ (hierarchy log (⟨G, s1, m1, l1⟩ : State K) nodes weight n_workers).1
        = (hierarchy log (⟨G, s2, m2, l2⟩ : State K) nodes weight n_workers).1
      ∧ (effective_size (⟨G, s1, m1, l1⟩ : State K) nodes weight
          n_workers).2.local_constraint_rec = l1 := by
  refine ⟨rfl, ?_, rfl, effective_size_lc _ nodes weight n_workers⟩
  rw [effective_size_dict, effective_size_dict]

/-! ## hierarchy of an evenly constrained node -/

/-- The first loop of `hierarchy` for a node: the sum `C` and the map `c` of the
local constraints towards the listed neighbours. -/
theorem hierarchy_collect {weight : String} {st0 : State K} (v : node_t) (l : List node_t)
    (r : (K × Map node_t K) × State K) (h : Ext weight st0 r.2) :
    (l.foldl (fun (r : (K × Map node_t K) × State K) w =>
        ((r.1.1 + (local_constraint r.2 v w weight).1,
          r.1.2.insert w (local_constraint (local_constraint r.2 v w weight).2 v w weight).1),
          (local_constraint (local_constraint r.2 v w weight).2 v w weight).2)) r).1.1
        = r.1.1 + (l.map (fun w => val_lc st0 v w weight)).sum
      ∧ (∀ w ∈ l,
        (l.foldl (fun (r : (K × Map node_t K) × State K) w =>
          ((r.1.1 + (local_constraint r.2 v w weight).1,
            r.1.2.insert w (local_constraint (local_constraint r.2 v w weight).2 v w weight).1),
            (local_constraint (local_constraint r.2 v w weight).2 v w weight).2)) r).1.2.lookup w
          = some (val_lc st0 v w weight))
      ∧ (∀ w, w ∉ l →
        (l.foldl (fun (r : (K × Map node_t K) × State K) w =>
          ((r.1.1 + (local_constraint r.2 v w weight).1,
            r.1.2.insert w (local_constraint (local_constraint r.2 v w weight).2 v w weight).1),
            (local_constraint (local_constraint r.2 v w weight).2 v w weight).2)) r).1.2.lookup w
          = r.1.2.lookup w) := by
  induction l generalizing r with
  | nil =>
    refine ⟨by simp, ?_, fun _ _ => rfl⟩
    intro w hw
    cases hw
  | cons a l ih =>
    simp only [List.foldl_cons, List.map_cons, List.sum_cons]
    obtain ⟨x1, x2⟩ := lc_ext h v a
    obtain ⟨y1, y2⟩ := lc_ext x2 v a
    obtain ⟨i1, i2, i3⟩ := ih
      ((r.1.1 + (local_constraint r.2 v a weight).1,
          r.1.2.insert a (local_constraint (local_constraint r.2 v a weight).2 v a weight).1),
          (local_constraint (local_constraint r.2 v a weight).2 v a weight).2) y2
    refine ⟨?_, ?_, ?_⟩
    · rw [i1, x1, add_assoc]
    · intro w hw
      by_cases hwl : w ∈ l
      · exact i2 w hwl
      · rw [i3 w hwl]
        rcases List.mem_cons.1 hw with hwa | hwa
        · subst hwa
          show (AList.insert w _ r.1.2).lookup w = _
          rw [AList.lookup_insert, y1]
        · exact absurd hwa hwl
    · intro w hw
      have hwl : w ∉ l := fun hc => hw (List.mem_cons_of_mem _ hc)
      have hwa : w ≠ a := fun hc => hw (hc ▸ List.mem_cons_self _ _)
      rw [i3 w hwl]
      show (AList.insert a _ r.1.2).lookup w = _
      rw [AList.lookup_insert_ne hwa]

/-- The second loop of `hierarchy`: every neighbour is a key of `c`, so the
subscripts read the stored constraints and leave `c` as it is. -/
theorem hierarchy_sum_loop (term : K → K → K) (g : node_t → K) (l : List node_t)
    (c : Map node_t K) (hc : ∀ w ∈ l, c.lookup w = some (g w)) (h0 : K) :
    l.foldl (fun (hs : K × Map node_t K) w =>
        (hs.1 + term (map_index hs.2 w 0).1 (map_index (map_index hs.2 w 0).2 w 0).1,
          (map_index (map_index hs.2 w 0).2 w 0).2)) (h0, c)
      = (h0 + (l.map (fun w => term (g w) (g w))).sum, c) := by
  induction l generalizing h0 with
  | nil => simp
  | cons a l ih =>
    have ha : c.lookup a = some (g a) := hc a (List.mem_cons_self _ _)
    have e1 : map_index c a 0 = (g a, c) := by
      unfold map_index
      rw [ha]
    simp only [List.foldl_cons, List.map_cons, List.sum_cons, e1]
    rw [ih (fun w hw => hc w (List.mem_cons_of_mem _ hw)), add_assoc]

theorem ego_len_no_loop (G : Graph K) (v : node_t) (h : (nbrs G v).lookup v = none) :
    (py_len (ego_subgraph G v) : Int) - 1 = (map_size (nbrs G v) : Int) := by
  have h1 : py_len (ego_subgraph G v) = ((v :: neighbors G v).dedup).length := rfl
  have hv : v ∉ neighbors G v := by
    unfold neighbors
    rw [← AList.mem_keys, ← AList.lookup_eq_none]
    exact h
  have h2 : (v :: neighbors G v).dedup = v :: neighbors G v := by
    rw [List.dedup_cons_of_not_mem hv]
    exact congrArg _ (List.Nodup.dedup (AList.keys_nodup (nbrs G v)))
  have h3 : (neighbors G v).length = map_size (nbrs G v) := by
    unfold neighbors map_size AList.keys List.keys
    simp
  rw [h1, h2, List.length_cons, h3]
  push_cast
  ring

/-- One visit of an evenly constrained node stores 0 for it. -/
theorem hierarchy_body_even {weight : String} (log : K → K) (G : Graph K) (v : node_t)
    (c : K) (hloop : (nbrs G v).lookup v = none) (hn : 1 < map_size (nbrs G v))
    (hc : 0 < c) (heven : ∀ w ∈ (nbrs G v).keys, localConstraint G v w weight = c)
    (hlog : log 1 = 0) (acc : Map node_t (PyFloat K) × State K)
    (h : Ext weight (⟨G, ∅, ∅, ∅⟩ : State K) acc.2) :
    (hierarchy_body log weight acc v).1.lookup v = some (PyFloat.num 0) := by
  have hnb : neighbors acc.2.G v = (nbrs G v).keys := by
    unfold neighbors
    rw [h.nbrs_eq]
  have hnbrs : nbrs acc.2.G v = nbrs G v := h.nbrs_eq v
  have hn2 : (py_len (ego_subgraph acc.2.G v) : Int) - 1 = (map_size (nbrs G v) : Int) := by
    rw [ego_len_no_loop acc.2.G v (by rw [hnbrs]; exact hloop), hnbrs]
  have hlen : (nbrs G v).keys.length = map_size (nbrs G v) := by
    unfold map_size AList.keys List.keys
    simp
  obtain ⟨c1, c2, _⟩ := hierarchy_collect v (nbrs G v).keys ((0, ∅), acc.2) h
  have hval : ∀ w ∈ (nbrs G v).keys,
      val_lc (⟨G, ∅, ∅, ∅⟩ : State K) v w weight = c := fun w hw => by
    rw [val_lc_empty]
    exact heven w hw
  have hC : ((nbrs G v).keys.map (fun w => val_lc (⟨G, ∅, ∅, ∅⟩ : State K) v w weight)).sum
      = (map_size (nbrs G v) : K) * c := by
    rw [List.map_congr_left hval, List.map_const', List.sum_replicate, nsmul_eq_mul, hlen]
  rw [zero_add, hC] at c1
  have hk : (map_size (nbrs G v) : K) ≠ 0 := by
    have : (0 : K) < (map_size (nbrs G v) : K) := by
      exact_mod_cast (lt_trans Nat.zero_lt_one hn)
    exact ne_of_gt this
  have hgt : (py_len (ego_subgraph acc.2.G v) : Int) - 1 > 1 := by
    rw [hn2]
    exact_mod_cast hn
  have hcast : (((py_len (ego_subgraph acc.2.G v) : Int) - 1 : Int) : K)
      = (map_size (nbrs G v) : K) := by
    rw [hn2]
    push_cast
    rfl
  unfold hierarchy_body
  simp only [hgt, if_true, hnb, hcast]
  rw [hierarchy_sum_loop
    (fun a b => a / _ * (map_size (nbrs G v) : K) * log (b / _ * (map_size (nbrs G v) : K))
      / ((map_size (nbrs G v) : K) * log (map_size (nbrs G v) : K)))
    (fun w => val_lc (⟨G, ∅, ∅, ∅⟩ : State K) v w weight) (nbrs G v).keys _ c2 0]
  simp only [c1]
  have hterm : ∀ w ∈ (nbrs G v).keys,
      val_lc (⟨G, ∅, ∅, ∅⟩ : State K) v w weight / ((map_size (nbrs G v) : K) * c)
          * (map_size (nbrs G v) : K)
          * log (val_lc (⟨G, ∅, ∅, ∅⟩ : State K) v w weight / ((map_size (nbrs G v) : K) * c)
            * (map_size (nbrs G v) : K))
          / ((map_size (nbrs G v) : K) * log (map_size (nbrs G v) : K)) = 0 := by
    intro w hw
    rw [hval w hw]
    have e : c / ((map_size (nbrs G v) : K) * c) * (map_size (nbrs G v) : K) = 1 := by
      field_simp
      ring
    rw [e, hlog]
    simp
  rw [List.map_congr_left hterm, List.map_const', List.sum_replicate]
  simp [map_count, AList.lookup_insert]

/-- Once a visit stores the value `x` for `v` at every reachable state, the loop of
`hierarchy` ends with `x` for a visited `v`. -/
theorem hierarchy_loop_value (weight : String) (st0 : State K) (log : K → K) (v : node_t)
    (x : PyFloat K)
    (hstep : ∀ acc : Map node_t (PyFloat K) × State K, Ext weight st0 acc.2 →
      (hierarchy_body log weight acc v).1.lookup v = some x)
    (l : List node_t) (acc : Map node_t (PyFloat K) × State K) (h : Ext weight st0 acc.2)
    (hv : v ∈ l ∨ acc.1.lookup v = some x) :
    (l.foldl (hierarchy_body log weight) acc).1.lookup v = some x := by
  induction l generalizing acc with
  | nil =>
    rcases hv with hv | hv
    · cases hv
    · exact hv
  | cons a l ih =>
    simp only [List.foldl_cons]
    have hE := hierarchy_body_ext log acc a h
    by_cases ha : a = v
    · subst ha
      exact ih _ hE (Or.inr (hstep acc h))
    · rcases hv with hv | hv
      · rcases List.mem_cons.1 hv with hv | hv
        · exact absurd hv.symm ha
        · exact ih _ hE (Or.inl hv)
      · exact ih _ hE (Or.inr (by
          rw [hierarchy_body_other log weight acc a v (Ne.symm ha)]
          exact hv))

/-- In exact arithmetic an evenly constrained node has hierarchy 0: for a requested
node `v` without a self-loop and with `n > 1` neighbours, if `local_constraint(v,w)`
from empty tables is the same positive value for every neighbour `w`, then `n` is the
number of neighbours and `hierarchy` returns 0 for `v`, for every function `log` with
`log 1 = 0`.  The rounding of the ratio `c / C * n` in `weight_t` is outside this
model. -/
theorem hierarchy_zero_of_even_constraint (log : K → K) (st : State K)
    (nodes : Option (List node_t)) (weight : Option String) (n_workers : Option Nat)
    (v : node_t) (c : K) (hlog : log 1 = 0) (hv : v ∈ requested st.G nodes)
    (hloop : (nbrs st.G v).lookup v = none) (hn : 1 < map_size (nbrs st.G v))
    (hc : 0 < c)
    (heven : ∀ w ∈ (nbrs st.G v).keys,
      (local_constraint (⟨st.G, ∅, ∅, ∅⟩ : State K) v w (weight_to_string weight)).1 = c) :
    (py_len (ego_subgraph st.G v) : Int) - 1 = (map_size (nbrs st.G v) : Int)
      ∧ (hierarchy log st nodes weight n_workers).1.lookup v = some (PyFloat.num 0) := by
  refine ⟨ego_len_no_loop st.G v hloop, ?_⟩
  have heven2 : ∀ w ∈ (nbrs st.G v).keys,
      localConstraint st.G v w (weight_to_string weight) = c := fun w hw => by
    rw [← heven w hw, (lc_ext (Ext.refl (weight_to_string weight)
      (⟨st.G, ∅, ∅, ∅⟩ : State K)) v w).1, val_lc_empty]
  unfold hierarchy
  exact hierarchy_loop_value (weight_to_string weight) (⟨st.G, ∅, ∅, ∅⟩ : State K) log v
    (PyFloat.num 0)
    (fun acc hacc => hierarchy_body_even log st.G v c hloop hn hc heven2 hlog acc hacc)
    (requested st.G nodes) (∅, ⟨st.G, ∅, ∅, ∅⟩) (Ext.refl _ _) (Or.inl hv)

/-- On the real triangle, with the natural logarithm, every local constraint of
node 1 is 9/16 and the hierarchy of node 1 is 0. -/
theorem hierarchy_triangle_real :
    (hierarchy Real.log (⟨triangle_real, ∅, ∅, ∅⟩ : State ℝ) none none none).1.lookup 1
      = some (PyFloat.num 0) :=
  (hierarchy_zero_of_even_constraint Real.log (⟨triangle_real, ∅, ∅, ∅⟩ : State ℝ) none none
    none 1 (9 / 16) Real.log_one (by simp [requested, triangle_real]) (by
      simp [nbrs, triangle_real, AList.lookup])
    (by decide) (by norm_num) (by
      intro w hw
      have hw2 : w = 2 ∨ w = 3 := by
        simpa [nbrs, triangle_real, AList.keys, AList.lookup, List.keys] using hw
      rw [(lc_ext (Ext.refl (weight_to_string none)
        (⟨triangle_real, ∅, ∅, ∅⟩ : State ℝ)) 1 w).1, val_lc_empty]
      rcases hw2 with rfl | rfl <;>
        norm_num [weight_to_string, localConstraint, normalizedMutualWeight, scaleOf,
          mutualWeight, edgeWeight, nbrs, triangle_real, AList.keys, AList.lookup,
          List.keys])).2

/-! ## The two effective-size algorithms agree on simple graphs -/

theorem dedupKeys_of_nodupKeys {α : Type} {β : α → Type} [DecidableEq α]
    (l : List (Sigma β)) (h : l.NodupKeys) : l.dedupKeys = l := by
  induction l with
  | nil => rfl
  | cons x l ih =>
    have h2 := List.nodupKeys_cons.1 h
    rw [List.dedupKeys_cons, ih h2.2, List.kinsert_def, List.kerase_of_not_mem_keys h2.1]

theorem toAList_entries {α : Type} {β : α → Type} [DecidableEq α]
    (l : List (Sigma β)) (h : l.NodupKeys) : (List.toAList l).entries = l := by
  rw [AList.entries_toAList, dedupKeys_of_nodupKeys l h]

theorem nodupKeys_map_mk {ν : Type} (f : node_t → ν) (S : List node_t) (h : S.Nodup) :
    (S.map (fun x => (⟨x, f x⟩ : Sigma fun _ : node_t => ν))).NodupKeys := by
  unfold List.NodupKeys List.keys
  rw [List.map_map]
  have e : (Sigma.fst ∘ fun x => (⟨x, f x⟩ : Sigma fun _ : node_t => ν)) = id := rfl
  rw [e, List.map_id]
  exact h

theorem toAList_filter_entries {ν : Type} (m : Map node_t ν)
    (p : (Sigma fun _ : node_t => ν) → Bool) :
    (List.toAList (m.entries.filter p)).entries = m.entries.filter p :=
  toAList_entries _ (List.NodupKeys.sublist (List.filter_sublist _) m.nodupKeys)

theorem keys_filter_entries {ν : Type} (m : Map node_t ν) (q : node_t → Bool) :
    (m.entries.filter (fun e => q e.1)).map Sigma.fst = m.keys.filter q := by
  unfold AList.keys List.keys
  rw [List.filter_map]
  rfl


theorem ego_nodes_no_loop (G : Graph K) (v : node_t) (h : (nbrs G v).lookup v = none) :
    (v :: neighbors G v).dedup = v :: (nbrs G v).keys := by
  have hv : v ∉ neighbors G v := by
    unfold neighbors
    rw [← AList.mem_keys, ← AList.lookup_eq_none]
    exact h
  rw [List.dedup_cons_of_not_mem hv]
  exact congrArg _ (List.Nodup.dedup (AList.keys_nodup (nbrs G v)))

theorem filter_ne_cons_self (v : node_t) (N : List node_t) (h : v ∉ N) :
    (v :: N).filter (fun x => decide (x ≠ v)) = N := by
  rw [List.filter_cons_of_neg (by simp)]
  exact List.filter_eq_self.2 (fun a ha => by
    simp only [ne_eq, decide_eq_true_eq]
    intro hc
    exact h (hc ▸ ha))

/-- The adjacency entries of the ego subgraph of `v` after `v` is removed. -/
theorem ego_removed_entries (G : Graph K) (v : node_t) (h : (nbrs G v).lookup v = none) :
    (remove_node (ego_subgraph G v) v).adj.entries
      = (nbrs G v).keys.map (fun x =>
          (⟨x, List.toAList (((nbrs G x).entries.filter
              (fun e => decide (e.1 ∈ v :: (nbrs G v).keys))).filter
                (fun f => decide (f.1 ≠ v)))⟩ :
            Sigma fun _ : node_t => adj_attr_dict_factory K)) := by
  have hv : v ∉ (nbrs G v).keys := by
    rw [← AList.mem_keys, ← AList.lookup_eq_none]
    exact h
  have hS : ((v :: (nbrs G v).keys) : List node_t).Nodup :=
    List.nodup_cons.2 ⟨hv, AList.keys_nodup _⟩
  unfold remove_node ego_subgraph
  simp only [ego_nodes_no_loop G v h]
  rw [toAList_entries _ (nodupKeys_map_mk _ _ hS), List.filter_map]
  have hf : List.filter ((fun e : (Sigma fun _ : node_t => adj_attr_dict_factory K) =>
        decide (e.1 ≠ v)) ∘ fun x =>
        (⟨x, List.toAList ((nbrs G x).entries.filter
          (fun e => decide (e.1 ∈ v :: (nbrs G v).keys)))⟩ :
            Sigma fun _ : node_t => adj_attr_dict_factory K)) (v :: (nbrs G v).keys)
      = (nbrs G v).keys := filter_ne_cons_self v _ hv
  rw [hf, List.map_map]
  have hg : ((fun e : (Sigma fun _ : node_t => adj_attr_dict_factory K) =>
        (⟨e.1, List.toAList (e.2.entries.filter (fun f => decide (f.1 ≠ v)))⟩ :
          Sigma fun _ : node_t => adj_attr_dict_factory K)) ∘ fun x =>
        (⟨x, List.toAList ((nbrs G x).entries.filter
          (fun e => decide (e.1 ∈ v :: (nbrs G v).keys)))⟩ :
            Sigma fun _ : node_t => adj_attr_dict_factory K))
      = fun x => (⟨x, List.toAList (((nbrs G x).entries.filter
              (fun e => decide (e.1 ∈ v :: (nbrs G v).keys))).filter
                (fun f => decide (f.1 ≠ v)))⟩ :
            Sigma fun _ : node_t => adj_attr_dict_factory K) := by
    funext x
    simp only [Function.comp, toAList_filter_entries]
  rw [hg]
  exact toAList_entries _ (nodupKeys_map_mk _ _ (AList.keys_nodup _))


theorem mem_keys_iff_adjacent (G : Graph K) (a b : node_t) :
    b ∈ (nbrs G a).keys ↔ adjacent G a b = true := by
  unfold adjacent
  rw [← AList.mem_keys, AList.lookup_isSome]

theorem length_filter_eq_card (l : List node_t) (h : l.Nodup) (p : node_t → Bool) :
    (l.filter p).length = (l.toFinset.filter (fun y => p y = true)).card := by
  rw [← List.toFinset_card_of_nodup (h.filter p), List.toFinset_filter]

/-- Every edge among the members of `F` is seen from both ends. -/
theorem double_count (F : Finset node_t) (A : node_t → node_t → Bool)
    (hs : ∀ a b, A a b = A b a) (hi : ∀ a, A a a = false) :
    (F.sum fun x => (F.filter (fun y => A x y = true)).card)
      = 2 * (F.sum fun x => (F.filter (fun y => A x y = true ∧ x ≤ y)).card) := by
  have hsplit : ∀ x y : node_t, (if A x y = true then 1 else 0 : ℕ)
      = (if A x y = true ∧ x ≤ y then 1 else 0) + (if A x y = true ∧ y ≤ x then 1 else 0) := by
    intro x y
    by_cases hA : A x y = true
    · have hne : x ≠ y := by
        intro hc
        rw [hc, hi] at hA
        cases hA
      rcases lt_or_gt_of_ne hne with hlt | hgt
      · simp [hA, le_of_lt hlt, not_le.2 hlt]
      · simp [hA, le_of_lt hgt, not_le.2 hgt]
    · simp [hA]
  have hswap : (F.sum fun x => F.sum fun y => (if A x y = true ∧ y ≤ x then 1 else 0 : ℕ))
      = F.sum fun x => F.sum fun y => (if A x y = true ∧ x ≤ y then 1 else 0 : ℕ) := by
    rw [Finset.sum_comm]
    refine Finset.sum_congr rfl (fun x _ => Finset.sum_congr rfl (fun y _ => ?_))
    rw [hs y x]
  simp only [Finset.card_filter]
  simp only [hsplit, Finset.sum_add_distrib, hswap]
  ring


theorem ego_removed_len (G : Graph K) (v : node_t) (h : (nbrs G v).lookup v = none) :
    py_len (remove_node (ego_subgraph G v) v) = map_size (nbrs G v) := by
  have hv : v ∉ (nbrs G v).keys := by
    rw [← AList.mem_keys, ← AList.lookup_eq_none]
    exact h
  have h1 : py_len (remove_node (ego_subgraph G v) v)
      = (((v :: neighbors G v).dedup).filter (fun x => decide (x ≠ v))).length := rfl
  rw [h1, ego_nodes_no_loop G v h, filter_ne_cons_self v _ hv]
  unfold map_size AList.keys List.keys
  simp

theorem map_fst_filter {ν : Type} (l : List (Sigma fun _ : node_t => ν)) (q : node_t → Bool) :
    (l.filter (fun e => q e.1)).map Sigma.fst = (l.map Sigma.fst).filter q := by
  rw [List.filter_map]
  rfl

theorem inner_keys {ν : Type} (m : Map node_t ν) (q1 q2 : node_t → Bool) :
    (List.toAList ((m.entries.filter (fun e => q1 e.1)).filter (fun f => q2 f.1))).keys
      = (m.keys.filter q1).filter q2 := by
  have hnd : ((m.entries.filter (fun e => q1 e.1)).filter (fun f => q2 f.1)).NodupKeys :=
    List.NodupKeys.sublist ((List.filter_sublist _).trans (List.filter_sublist _)) m.nodupKeys
  unfold AList.keys
  rw [toAList_entries _ hnd]
  unfold List.keys
  rw [map_fst_filter, map_fst_filter]

/-- The number of edges of the ego subgraph of `v` without `v`, counted over the
neighbours of `v`. -/
theorem ego_removed_edges (G : Graph K) (v : node_t) (h : (nbrs G v).lookup v = none)
    (hdir : G.directed = false) :
    number_of_edges (remove_node (ego_subgraph G v) v)
      = (nbrs G v).keys.toFinset.sum (fun x =>
          ((nbrs G v).keys.toFinset.filter (fun y => adjacent G x y = true ∧ x ≤ y)).card) := by
  have hv : v ∉ (nbrs G v).keys := by
    rw [← AList.mem_keys, ← AList.lookup_eq_none]
    exact h
  have hd : (remove_node (ego_subgraph G v) v).directed = false := hdir
  unfold number_of_edges
  rw [ego_removed_entries G v h, hd, List.map_map, List.sum_toFinset _ (AList.keys_nodup _)]
  refine congrArg List.sum (List.map_congr_left (fun x _ => ?_))
  simp only [Function.comp, Bool.false_or]
  rw [inner_keys (nbrs G x) (fun y => decide (y ∈ v :: (nbrs G v).keys))
    (fun y => decide (y ≠ v)),
    length_filter_eq_card _ (((AList.keys_nodup _).filter _).filter _)]
  congr 1
  ext y
  simp only [List.toFinset_filter, Finset.mem_filter, List.mem_toFinset, decide_eq_true_eq,
    List.mem_cons, mem_keys_iff_adjacent]
  constructor
  · rintro ⟨⟨⟨h1, h2⟩, h3⟩, h4⟩
    rcases h2 with h2 | h2
    · exact absurd h2 h3
    · exact ⟨h2, h1, h4⟩
  · rintro ⟨h1, h2, h3⟩
    refine ⟨⟨⟨h2, Or.inr h1⟩, ?_⟩, h3⟩
    intro hc
    exact hv ((mem_keys_iff_adjacent G v v).2 (hc ▸ h1))


theorem edgeWeight_plain (G : Graph K) (key : String)
    (hplain : ∀ a b attrs, (nbrs G a).lookup b = some attrs → attrs.lookup key = none)
    (a b : node_t) : edgeWeight G a b key = if adjacent G a b = true then 1 else 0 := by
  unfold edgeWeight adjacent
  cases hb : (nbrs G a).lookup b with
  | none => simp
  | some attrs =>
    show (attrs.lookup key).getD 1 = _
    rw [hplain a b attrs hb]
    simp

theorem mutualWeight_plain (G : Graph K) (key : String)
    (hsym : ∀ a b, adjacent G a b = adjacent G b a)
    (hplain : ∀ a b attrs, (nbrs G a).lookup b = some attrs → attrs.lookup key = none)
    (a b : node_t) : mutualWeight G a b key = if adjacent G a b = true then 2 else 0 := by
  unfold mutualWeight
  rw [edgeWeight_plain G key hplain a b, edgeWeight_plain G key hplain b a, hsym b a]
  by_cases h : adjacent G a b = true
  · simp only [h, if_true]
    norm_num
  · simp only [h, if_false]
    norm_num

theorem keys_length (G : Graph K) (u : node_t) :
    (nbrs G u).keys.length = map_size (nbrs G u) := by
  unfold map_size AList.keys List.keys
  simp

theorem scaleOf_sum_plain (G : Graph K) (key : String)
    (hsym : ∀ a b, adjacent G a b = adjacent G b a)
    (hplain : ∀ a b attrs, (nbrs G a).lookup b = some attrs → attrs.lookup key = none)
    (u : node_t) : scaleOf G u key norm_t.sum = 2 * (map_size (nbrs G u) : K) := by
  have hc : ∀ w ∈ (nbrs G u).keys, mutualWeight G u w key = 2 := fun w hw => by
    rw [mutualWeight_plain G key hsym hplain, if_pos ((mem_keys_iff_adjacent G u w).1 hw)]
  show ((nbrs G u).keys.map (fun w => mutualWeight G u w key)).sum = _
  rw [List.map_congr_left hc, List.map_const', List.sum_replicate, nsmul_eq_mul, keys_length]
  ring

theorem foldl_max_const (l : List node_t) (f : node_t → K) (c : K) (hc : 0 ≤ c)
    (hf : ∀ w ∈ l, f w = c) (hl : l ≠ []) :
    l.foldl (fun s w => max s (f w)) 0 = c := by
  have gen : ∀ (l : List node_t) (s : K), (∀ w ∈ l, f w = c) → s ≤ c → l ≠ [] →
      l.foldl (fun s w => max s (f w)) s = c := by
    intro l
    induction l with
    | nil => intro s _ _ h; exact absurd rfl h
    | cons a t ih =>
      intro s hf hs _
      simp only [List.foldl_cons]
      rw [hf a (List.mem_cons_self _ _), max_eq_right hs]
      cases t with
      | nil => rfl
      | cons b t2 =>
        exact ih c (fun w hw => hf w (List.mem_cons_of_mem _ hw)) (le_refl _)
          (List.cons_ne_nil _ _)
  exact gen l 0 hf hc hl

theorem scaleOf_max_plain (G : Graph K) (key : String)
    (hsym : ∀ a b, adjacent G a b = adjacent G b a)
    (hplain : ∀ a b attrs, (nbrs G a).lookup b = some attrs → attrs.lookup key = none)
    (u : node_t) (hu : (nbrs G u).keys ≠ []) : scaleOf G u key norm_t.max = 2 := by
  have hc : ∀ w ∈ (nbrs G u).keys, mutualWeight G u w key = 2 := fun w hw => by
    rw [mutualWeight_plain G key hsym hplain, if_pos ((mem_keys_iff_adjacent G u w).1 hw)]
  exact foldl_max_const _ _ 2 (by norm_num) hc hu

theorem sum_map_indicator (l : List node_t) (p : node_t → Bool) (c : K) :
    (l.map (fun w => c * (if p w = true then 1 else 0))).sum = c * ((l.filter p).length : K) := by
  induction l with
  | nil => simp
  | cons a l ih =>
    simp only [List.map_cons, List.sum_cons, ih, List.filter_cons]
    by_cases h : p a = true
    · simp only [h, if_true, List.length_cons]
      push_cast
      ring
    · simp only [h, if_false]
      simp

theorem sum_map_one_sub (l : List node_t) (f : node_t → K) :
    (l.map (fun u => 1 - f u)).sum = (l.length : K) - (l.map f).sum := by
  induction l with
  | nil => simp
  | cons a l ih =>
    simp only [List.map_cons, List.sum_cons, ih, List.length_cons]
    push_cast
    ring

/-- The redundancy of a neighbour `u` of `v` in a simple unweighted undirected
graph: 1 minus the share of the neighbours of `v` adjacent to `u`. -/
theorem redundancyOf_plain (G : Graph K) (key : String)
    (hsym : ∀ a b, adjacent G a b = adjacent G b a)
    (hplain : ∀ a b attrs, (nbrs G a).lookup b = some attrs → attrs.lookup key = none)
    (v u : node_t) (hu : u ∈ (nbrs G v).keys) :
    redundancyOf G v u key
      = 1 - (1 / (map_size (nbrs G v) : K))
          * (((nbrs G v).keys.filter (fun w => adjacent G u w)).length : K) := by
  have hk : (map_size (nbrs G v) : K) ≠ 0 := by
    rw [← keys_length]
    have : 0 < (nbrs G v).keys.length := List.length_pos_of_mem hu
    exact_mod_cast (ne_of_gt this)
  have huv : adjacent G u v = true := by
    rw [hsym u v]
    exact (mem_keys_iff_adjacent G v u).1 hu
  have hune : (nbrs G u).keys ≠ [] :=
    List.ne_nil_of_mem ((mem_keys_iff_adjacent G u v).2 huv)
  have hterm : ∀ w ∈ (nbrs G v).keys,
      normalizedMutualWeight G v w key norm_t.sum * normalizedMutualWeight G u w key norm_t.max
        = (1 / (map_size (nbrs G v) : K)) * (if adjacent G u w = true then 1 else 0) := by
    intro w hw
    unfold normalizedMutualWeight
    rw [scaleOf_sum_plain G key hsym hplain, scaleOf_max_plain G key hsym hplain u hune,
      mutualWeight_plain G key hsym hplain v w, mutualWeight_plain G key hsym hplain u w,
      if_pos ((mem_keys_iff_adjacent G v w).1 hw)]
    have h2 : (2 : K) * (map_size (nbrs G v) : K) ≠ 0 := mul_ne_zero two_ne_zero hk
    rw [if_neg h2, if_neg (two_ne_zero)]
    by_cases hA : adjacent G u w = true
    · simp only [hA, if_true]
      field_simp
    · simp only [hA, if_false]
      simp
  unfold redundancyOf
  rw [List.map_congr_left hterm, sum_map_indicator]


theorem entries_of_lookup (G : Graph K) (a b : node_t) (attrs : edge_attr_dict_factory K)
    (h : (nbrs G a).lookup b = some attrs) :
    (⟨a, nbrs G a⟩ : Sigma fun _ : node_t => adj_attr_dict_factory K) ∈ G.adj.entries
      ∧ (⟨b, attrs⟩ : Sigma fun _ : node_t => edge_attr_dict_factory K)
          ∈ (nbrs G a).entries := by
  have ha : G.adj.lookup a = some (nbrs G a) := by
    unfold nbrs at h ⊢
    cases hl : G.adj.lookup a with
    | none => rw [hl] at h; simp at h
    | some m => rfl
  exact ⟨AList.mem_lookup_iff.1 ha, AList.mem_lookup_iff.1 h⟩

theorem adjacent_symm_of (G : Graph K) (h : symmetric_adj G) (a b : node_t) :
    adjacent G a b = adjacent G b a := by
  have one : ∀ x y, adjacent G x y = true → adjacent G y x = true := by
    intro x y hxy
    unfold adjacent at hxy
    cases hl : (nbrs G x).lookup y with
    | none => rw [hl] at hxy; cases hxy
    | some attrs =>
      obtain ⟨m1, m2⟩ := entries_of_lookup G x y attrs hl
      exact h _ m1 _ m2
  cases hab : adjacent G a b with
  | true => exact (one a b hab).symm
  | false =>
    cases hba : adjacent G b a with
    | false => rfl
    | true => rw [one b a hba] at hab; cases hab

theorem adjacent_irrefl_of (G : Graph K) (h : loop_free G) (a : node_t) :
    adjacent G a a = false := by
  cases haa : adjacent G a a with
  | false => rfl
  | true =>
    have haa2 := haa
    unfold adjacent at haa2
    cases hl : (nbrs G a).lookup a with
    | none => rw [hl] at haa2; cases haa2
    | some attrs =>
      obtain ⟨m1, _⟩ := entries_of_lookup G a a attrs hl
      rw [h _ m1] at haa
      cases haa

theorem plain_of (G : Graph K) (key : String) (h : unweighted G key) (a b : node_t)
    (attrs : edge_attr_dict_factory K) (hl : (nbrs G a).lookup b = some attrs) :
    attrs.lookup key = none := by
  obtain ⟨m1, m2⟩ := entries_of_lookup G a b attrs hl
  exact h _ m1 _ m2

/-- The sum of the redundancies of the neighbours of `v` in a simple unweighted
undirected graph. -/
theorem redundancy_sum_plain (G : Graph K) (key : String) (v : node_t)
    (hund : G.directed = false) (hsym : symmetric_adj G) (hloop : loop_free G)
    (hplain : unweighted G key) :
    ((nbrs G v).keys.map (fun u => redundancyOf G v u key)).sum
      = (map_size (nbrs G v) : K)
        - 2 * (number_of_edges (remove_node (ego_subgraph G v) v) : K)
          / (map_size (nbrs G v) : K) := by
  have hs := adjacent_symm_of G hsym
  have hi := adjacent_irrefl_of G hloop
  have hp := plain_of G key hplain
  have hvv : (nbrs G v).lookup v = none := by
    have := hi v
    unfold adjacent at this
    cases hl : (nbrs G v).lookup v with
    | none => rfl
    | some x => rw [hl] at this; cases this
  have hnat : ((nbrs G v).keys.map (fun u =>
      ((nbrs G v).keys.filter (fun w => adjacent G u w)).length)).sum
      = 2 * number_of_edges (remove_node (ego_subgraph G v) v) := by
    rw [ego_removed_edges G v hvv hund, ← double_count _ (adjacent G) hs hi,
      List.sum_toFinset _ (AList.keys_nodup _)]
    refine congrArg List.sum (List.map_congr_left (fun u _ => ?_))
    exact length_filter_eq_card _ (AList.keys_nodup _) _
  have hcast : ((nbrs G v).keys.map (fun u =>
      (((nbrs G v).keys.filter (fun w => adjacent G u w)).length : K))).sum
      = 2 * (number_of_edges (remove_node (ego_subgraph G v) v) : K) := by
    have := congrArg (fun n : ℕ => (n : K)) hnat
    simp only [Nat.cast_list_sum, List.map_map, Nat.cast_mul, Nat.cast_ofNat] at this
    exact this
  rw [List.map_congr_left (fun u hu => redundancyOf_plain G key hs hp v u hu),
    sum_map_one_sub, List.sum_map_mul_left, hcast, keys_length]
  ring

/-- In exact arithmetic the two algorithms of `effective_size` agree: in a graph with
symmetric adjacency, without self-loops and without the attribute `key` on any edge,
for a requested node `v` with a neighbour, the general formula (the branch taken with
the weight key `key`, and the sum of the `redundancy(v,u)` calls run from empty
tables) and the unweighted undirected branch both give `k - 2 * m / k`, with `k` the
number of neighbours of `v` and `m` the number of edges among them.  The rounding of
`weight_t`, which separates the two branches in the last digits, is outside this
model. -/
theorem effective_size_branches_agree (st : State K) (nodes : Option (List node_t))
    (n_workers : Option Nat) (key : String) (v : node_t)
    (hund : st.G.directed = false) (hsym : symmetric_adj st.G) (hloop : loop_free st.G)
    (hplain : unweighted st.G key) (hv : v ∈ requested st.G nodes)
    (hne : map_size (nbrs st.G v) ≠ 0) :
    (effective_size st nodes (some key) n_workers).1.lookup v
        = some (PyFloat.num ((map_size (nbrs st.G v) : K)
            - 2 * (number_of_edges (remove_node (ego_subgraph st.G v) v) : K)
              / (map_size (nbrs st.G v) : K)))
      ∧ (effective_size st nodes none n_workers).1.lookup v
        = some (PyFloat.num ((map_size (nbrs st.G v) : K)
            - 2 * (number_of_edges (remove_node (ego_subgraph st.G v) v) : K)
              / (map_size (nbrs st.G v) : K)))
      ∧ ((nbrs st.G v).keys.foldl (fun (r : K × State K) u =>
            (r.1 + (redundancy r.2 v u key).1, (redundancy r.2 v u key).2))
          (0, (⟨st.G, ∅, ∅, ∅⟩ : State K))).1
        = (map_size (nbrs st.G v) : K)
            - 2 * (number_of_edges (remove_node (ego_subgraph st.G v) v) : K)
              / (map_size (nbrs st.G v) : K) := by
  have hsum := redundancy_sum_plain st.G key v hund hsym hloop hplain
  have hvv : (nbrs st.G v).lookup v = none := by
    have := adjacent_irrefl_of st.G hloop v
    unfold adjacent at this
    cases hl : (nbrs st.G v).lookup v with
    | none => rfl
    | some x => rw [hl] at this; cases this
  refine ⟨?_, ?_, ?_⟩
  · rw [effective_size_lookup st nodes (some key) n_workers v hv]
    have hb : ¬ ((!is_directed st.G) && (some key).isNone) = true := by simp
    rw [if_neg hb]
    unfold val_es_general
    rw [if_neg hne]
    simp only [val_red_empty]
    exact congrArg (fun x => some (PyFloat.num x)) hsum
  · rw [effective_size_lookup st nodes none n_workers v hv]
    have hb : ((!is_directed st.G) && (none : Option String).isNone) = true := by
      unfold is_directed
      simp [hund]
    rw [if_pos hb]
    unfold val_es_plain py_getitem
    rw [if_neg hne, ego_removed_len st.G v hvv,
      float_sub_div_of_ne _ _ _ (Nat.cast_ne_zero.2 hne)]
  · have key2 := foldl_ext
      (fun u : node_t => val_red (⟨st.G, ∅, ∅, ∅⟩ : State K) v u key)
      (fun (r : K × State K) u =>
            (r.1 + (redundancy r.2 v u key).1, (redundancy r.2 v u key).2))
      (fun acc u hacc => by
        obtain ⟨x1, x2⟩ := redundancy_ext hacc v u
        exact ⟨by simp only [x1], x2⟩)
      (nbrs st.G v).keys (0, (⟨st.G, ∅, ∅, ∅⟩ : State K)) (Ext.refl key _)
    rw [key2.1, zero_add]
    simp only [val_red_empty]
    exact hsum

/-- In the triangle both algorithms give 1 for node 1; in the star both give 3
for the centre and 1 for the leaf 1. -/
theorem effective_size_branches_agree_examples :
    ((effective_size (fresh triangle) none (some "None") none).1.lookup 1
        = some (PyFloat.num 1)
      ∧ (effective_size (fresh triangle) none none none).1.lookup 1 = some (PyFloat.num 1))
    ∧ ((effective_size (fresh star_graph) none (some "None") none).1.lookup 0
        = some (PyFloat.num 3)
      ∧ (effective_size (fresh star_graph) none none none).1.lookup 0 = some (PyFloat.num 3))
    ∧ ((effective_size (fresh star_graph) none (some "None") none).1.lookup 1
        = some (PyFloat.num 1)
      ∧ (effective_size (fresh star_graph) none none none).1.lookup 1
        = some (PyFloat.num 1)) := by
  have ts : symmetric_adj triangle := by unfold symmetric_adj; decide
  have tl : loop_free triangle := by unfold loop_free; decide
  have tp : unweighted triangle "None" := by unfold unweighted; decide
  have ss : symmetric_adj star_graph := by unfold symmetric_adj; decide
  have sl : loop_free star_graph := by unfold loop_free; decide
  have sp : unweighted star_graph "None" := by unfold unweighted; decide
  have t1 := effective_size_branches_agree (fresh triangle) none none "None" 1 rfl ts tl tp
    (by decide) (by decide)
  have s0 := effective_size_branches_agree (fresh star_graph) none none "None" 0 rfl ss sl sp
    (by decide) (by decide)
  have s1 := effective_size_branches_agree (fresh star_graph) none none "None" 1 rfl ss sl sp
    (by decide) (by decide)
  have kt : map_size (nbrs (fresh triangle).G 1) = 2 := by decide
  have mt : number_of_edges (remove_node (ego_subgraph (fresh triangle).G 1) 1) = 1 := by
    decide
  have k0 : map_size (nbrs (fresh star_graph).G 0) = 3 := by decide
  have m0 : number_of_edges (remove_node (ego_subgraph (fresh star_graph).G 0) 0) = 0 := by
    decide
  have k1 : map_size (nbrs (fresh star_graph).G 1) = 1 := by decide
  have m1 : number_of_edges (remove_node (ego_subgraph (fresh star_graph).G 1) 1) = 0 := by
    decide
  rw [kt, mt] at t1
  rw [k0, m0] at s0
  rw [k1, m1] at s1
  norm_num at t1 s0 s1
  exact ⟨⟨t1.1, t1.2.1⟩, ⟨s0.1, s0.2.1⟩, ⟨s1.1, s1.2.1⟩⟩

/-! ## The unweighted undirected branch and the undefined value -/

theorem ego_removed_edges_zero (G : Graph K) (v : node_t)
    (h : py_len (remove_node (ego_subgraph G v) v) = 0) :
    number_of_edges (remove_node (ego_subgraph G v) v) = 0 := by
  have hS : ((v :: neighbors G v).dedup).filter (fun x => decide (x ≠ v)) = [] :=
    List.length_eq_zero.1 h
  have hE : (remove_node (ego_subgraph G v) v).adj.entries = [] := by
    unfold remove_node ego_subgraph
    simp only []
    rw [toAList_entries _ (nodupKeys_map_mk _ _ (List.nodup_dedup _)), List.filter_map]
    have hf : List.filter ((fun e : (Sigma fun _ : node_t => adj_attr_dict_factory K) =>
          decide (e.1 ≠ v)) ∘ fun x =>
          (⟨x, List.toAList ((nbrs G x).entries.filter
            (fun e => decide (e.1 ∈ (v :: neighbors G v).dedup)))⟩ :
              Sigma fun _ : node_t => adj_attr_dict_factory K)) ((v :: neighbors G v).dedup)
        = [] := hS
    rw [hf]
    rfl
  unfold number_of_edges
  rw [hE]
  rfl

/-- C7: in the unweighted undirected branch of `effective_size` the value of a
requested node `v` with a neighbour is the floating-point expression
`k - 2 * m / k`, with `k` the number of vertices and `m` the number of edges of the
ego subgraph of `v` after `v` is removed: for `k` not 0 it is the number
`k - 2 * m / k` with exact, non-integer division; for `k = 0` (the only neighbour of
`v` is `v`) the quotient is `0/0` and the value is not a number. -/
theorem effective_size_plain_branch (st : State K) (nodes : Option (List node_t))
    (n_workers : Option Nat) (v : node_t) (hund : st.G.directed = false)
    (hv : v ∈ requested st.G nodes) (hne : map_size (nbrs st.G v) ≠ 0) :
    (effective_size st nodes none n_workers).1.lookup v
        = some (float_sub (py_len (remove_node (ego_subgraph st.G v) v) : K)
            (float_div (2 * (number_of_edges (remove_node (ego_subgraph st.G v) v) : K))
              (py_len (remove_node (ego_subgraph st.G v) v) : K)))
      ∧ (py_len (remove_node (ego_subgraph st.G v) v) ≠ 0 →
          (effective_size st nodes none n_workers).1.lookup v
            = some (PyFloat.num ((py_len (remove_node (ego_subgraph st.G v) v) : K)
                - 2 * (number_of_edges (remove_node (ego_subgraph st.G v) v) : K)
                  / (py_len (remove_node (ego_subgraph st.G v) v) : K))))
      ∧ (py_len (remove_node (ego_subgraph st.G v) v) = 0 →
          (effective_size st nodes none n_workers).1.lookup v = some PyFloat.nan) := by
  have hb : ((!is_directed st.G) && (none : Option String).isNone) = true := by
    unfold is_directed
    simp [hund]
  have hval : (effective_size st nodes none n_workers).1.lookup v
      = some (float_sub (py_len (remove_node (ego_subgraph st.G v) v) : K)
          (float_div (2 * (number_of_edges (remove_node (ego_subgraph st.G v) v) : K))
            (py_len (remove_node (ego_subgraph st.G v) v) : K))) := by
    rw [effective_size_lookup st nodes none n_workers v hv, if_pos hb]
    unfold val_es_plain py_getitem
    rw [if_neg hne]
  refine ⟨hval, ?_, ?_⟩
  · intro hk
    rw [hval, float_sub_div_of_ne _ _ _ (Nat.cast_ne_zero.2 hk)]
  · intro hk
    rw [hval]
    refine congrArg some ((float_sub_div_nan_iff _ _ _).2 ⟨?_, ?_⟩)
    · rw [hk]
      exact Nat.cast_zero
    · rw [ego_removed_edges_zero st.G v hk]
      simp

/-- In the triangle every node gets `2 - (2 * 1) / 2 = 1`. -/
theorem effective_size_triangle :
    (effective_size (fresh triangle) none none none).1.lookup 1 = some (PyFloat.num 1)
      ∧ (effective_size (fresh triangle) none none none).1.lookup 2 = some (PyFloat.num 1)
      ∧ (effective_size (fresh triangle) none none none).1.lookup 3 = some (PyFloat.num 1) :=
  have hk : ∀ x ∈ [1, 2, 3], py_len (remove_node (ego_subgraph triangle x) x) = 2 := by decide
  have hm : ∀ x ∈ [1, 2, 3],
      number_of_edges (remove_node (ego_subgraph triangle x) x) = 1 := by decide
  have hn : ∀ x ∈ [1, 2, 3], map_size (nbrs triangle x) ≠ 0 := by decide
  have hval : ∀ x ∈ [1, 2, 3],
      some (PyFloat.num ((py_len (remove_node (ego_subgraph triangle x) x) : ℚ)
          - 2 * (number_of_edges (remove_node (ego_subgraph triangle x) x) : ℚ)
            / (py_len (remove_node (ego_subgraph triangle x) x) : ℚ)))
        = some (PyFloat.num 1) := fun x hx => by
    rw [hk x hx, hm x hx]
    norm_num
  ⟨((effective_size_plain_branch (fresh triangle) none none 1 rfl (by decide)
      (hn 1 (by decide))).2.1 (by decide)).trans (hval 1 (by decide)),
    ((effective_size_plain_branch (fresh triangle) none none 2 rfl (by decide)
      (hn 2 (by decide))).2.1 (by decide)).trans (hval 2 (by decide)),
    ((effective_size_plain_branch (fresh triangle) none none 3 rfl (by decide)
      (hn 3 (by decide))).2.1 (by decide)).trans (hval 3 (by decide))⟩

end StructuralHoles
